import Mathlib

/-!
# Hashcash v1 (`hashcash.go`): a shallow embedding and its verified properties

The Go package exposes `New`, `Mint` and `Check` on a `Hash` engine.  Go strings are
modelled as lists of bytes, the engine's SHA-1 hasher as explicit state, the wall clock,
the local time zone and the random source as explicit inputs, and the unbounded search
loop of `Mint` as a fuel-indexed function.
-/

namespace Hashcash

/-! ## Bytes and strings -/

/-- A Go `byte`. -/
abbrev Byte := Fin 256

/-- A Go `string` (equally a `[]byte`): an arbitrary finite sequence of bytes. -/
abbrev Str := List Byte

/-- The bytes of a string literal (its UTF-8 encoding, as Go stores literals). -/
def str (s : String) : Str :=
  (s.toList.flatMap String.utf8EncodeChar).map (fun b => b.val)

/-- The field separator `':'`. -/
def colon : Byte := 58

/-! ## `crypto/sha1` -/

/-- Rotate a 32-bit word left by `n` bits. -/
def rotl (n x : Nat) : Nat := ((x <<< n) ||| (x >>> (32 - n))) % 2 ^ 32

/-- Big-endian encoding of the low `8 * n` bits of `x` in `n` bytes. -/
def beBytes : Nat → Nat → Str
  | 0, _ => []
  | n + 1, x => beBytes n (x / 256) ++ [Fin.ofNat (x % 256)]

/-- Big-endian value of a byte sequence. -/
def beValue (bs : Str) : Nat := bs.foldl (fun acc b => acc * 256 + b.val) 0

/-- SHA-1 padding: a `0x80` byte, zero bytes up to 56 modulo 64, then the message length
in bits as a 64-bit big-endian integer. -/
def sha1Pad (msg : Str) : Str :=
  msg ++ [0x80] ++ List.replicate ((119 - msg.length % 64) % 64) 0
    ++ beBytes 8 (msg.length * 8 % 2 ^ 64)

/-- The sixteen big-endian 32-bit words of a 64-byte block. -/
def blockWords : Nat → Str → List Nat
  | 0, _ => []
  | n + 1, bs => beValue (bs.take 4) :: blockWords n (bs.drop 4)

/-- Message schedule, newest word first: extends `w` (held in reverse order) by `n` words
`w[t] = rotl 1 (w[t-3] ^ w[t-8] ^ w[t-14] ^ w[t-16])`. -/
def sha1Schedule : Nat → List Nat → List Nat
  | 0, w => w
  | n + 1, w =>
    sha1Schedule n
      (rotl 1 (((w.getD 2 0 ^^^ w.getD 7 0) ^^^ w.getD 13 0) ^^^ w.getD 15 0) :: w)

/-- The five working variables of SHA-1 (also the chaining value). -/
structure Sha1State where
  a : Nat
  b : Nat
  c : Nat
  d : Nat
  e : Nat

/-- The initial chaining value. -/
def sha1Init : Sha1State :=
  ⟨0x67452301, 0xEFCDAB89, 0x98BADCFE, 0x10325476, 0xC3D2E1F0⟩

/-- Round function and constant for round `t`. -/
def sha1F (t b c d : Nat) : Nat × Nat :=
  if t < 20 then ((b &&& c) ||| ((b ^^^ 0xFFFFFFFF) &&& d), 0x5A827999)
  else if t < 40 then ((b ^^^ c) ^^^ d, 0x6ED9EBA1)
  else if t < 60 then (((b &&& c) ||| (b &&& d)) ||| (c &&& d), 0x8F1BBCDC)
  else ((b ^^^ c) ^^^ d, 0xCA62C1D6)

/-- One round of the compression function. -/
def sha1Round (s : Sha1State) (t w : Nat) : Sha1State :=
  let fk := sha1F t s.b s.c s.d
  ⟨(rotl 5 s.a + fk.1 + s.e + fk.2 + w) % 2 ^ 32, s.a, rotl 30 s.b, s.c, s.d⟩

/-- Rounds `t, t+1, ...` over the remaining schedule words. -/
def sha1Rounds : Sha1State → Nat → List Nat → Sha1State
  | s, _, [] => s
  | s, t, w :: ws => sha1Rounds (sha1Round s t w) (t + 1) ws

/-- Compression of one 64-byte block into the chaining value. -/
def sha1Block (h : Sha1State) (block : Str) : Sha1State :=
  let w := (sha1Schedule 64 (blockWords 16 block).reverse).reverse
  let s := sha1Rounds h 0 w
  ⟨(h.a + s.a) % 2 ^ 32, (h.b + s.b) % 2 ^ 32, (h.c + s.c) % 2 ^ 32,
   (h.d + s.d) % 2 ^ 32, (h.e + s.e) % 2 ^ 32⟩

/-- Compression of `n` consecutive 64-byte blocks. -/
def sha1Blocks : Nat → Sha1State → Str → Sha1State
  | 0, h, _ => h
  | n + 1, h, bs => sha1Blocks n (sha1Block h (bs.take 64)) (bs.drop 64)

/-- The 20-byte SHA-1 digest of a message. -/
def sha1 (msg : Str) : Str :=
  let p := sha1Pad msg
  let h := sha1Blocks (p.length / 64) sha1Init p
  beBytes 4 h.a ++ beBytes 4 h.b ++ beBytes 4 h.c ++ beBytes 4 h.d ++ beBytes 4 h.e


/-! ## `strings.Split`, `strconv.ParseUint`, `fmt.Sprintf` -/

/-- Model of `strings.Split(s, sep)` for a one-byte separator: the maximal runs of `s`
between occurrences of `sep`; always one more field than there are separators, so the
empty string gives the single empty field. -/
def split (sep : Byte) : Str → List Str
  | [] => [[]]
  | c :: cs =>
    if c = sep then [] :: split sep cs
    else match split sep cs with
      | [] => [[c]]
      | f :: fs => (c :: f) :: fs

/-- One iteration of the digit loop of `strconv.ParseUint` in base 10 with largest
admissible value `maxVal`; `none` is a syntax or range error. -/
def parseUintStep (maxVal : Nat) (acc : Option Nat) (c : Byte) : Option Nat :=
  match acc with
  | none => none
  | some n =>
    let lower := c.val ||| 0x20
    let d : Option Nat :=
      if 48 ≤ c.val ∧ c.val ≤ 57 then some (c.val - 48)
      else if 97 ≤ lower ∧ lower ≤ 122 then some (lower - 97 + 10)
      else none
    match d with
    | none => none
    | some d =>
      if d ≥ 10 then none
      else if n ≥ (2 ^ 64 - 1) / 10 + 1 then none
      else
        let n1 := (n * 10 + d) % 2 ^ 64
        if n1 < n * 10 ∨ n1 > maxVal then none else some n1

/-- Model of `strconv.ParseUint(s, 10, bitSize)`: `some n` when the call returns a nil
error, `none` when it returns an error (the empty string, any byte that is not a decimal
digit, or a value above `2 ^ bitSize - 1`). -/
def ParseUint (s : Str) (bitSize : Nat) : Option Nat :=
  if s = [] then none else s.foldl (parseUintStep (2 ^ bitSize - 1)) (some 0)

/-- The digit characters used by `fmt` for `%d` and `%x`. -/
def ldigits : Str := str "0123456789abcdef"

/-- Digit loop of `fmt`'s integer formatting: the digits of `u` in `base`, most
significant first.  The first argument bounds the number of digits. -/
def fmtDigits (base : Nat) : Nat → Nat → Str
  | 0, _ => []
  | fuel + 1, u =>
    if u ≥ base then fmtDigits base fuel (u / base) ++ [ldigits.getD (u % base) 0]
    else [ldigits.getD u 0]

/-- Verb `%d` applied to an unsigned integer. -/
def fmtDec (u : Nat) : Str := fmtDigits 10 (u + 1) u

/-- Verb `%x` applied to a non-negative integer. -/
def fmtHex (u : Nat) : Str := fmtDigits 16 (u + 1) u

/-- The stamp text `fmt.Sprintf("1:%d:%s:%s:%s:%s:%x", bits, date, resource, extra, salt,
counter)`. -/
def sprintfStamp (bits : Nat) (date resource extra salt : Str) (counter : Nat) : Str :=
  str "1:" ++ fmtDec bits ++ [colon] ++ date ++ [colon] ++ resource ++ [colon] ++ extra
    ++ [colon] ++ salt ++ [colon] ++ fmtHex counter

/-! ## `encoding/base64` -/

/-- The alphabet of `base64.StdEncoding`. -/
def encodeStd : Str :=
  str "ABCDEFGHIJKLMNOPQRSTUVWXYZabcdefghijklmnopqrstuvwxyz0123456789+/"

/-- The padding character `'='`. -/
def stdPadding : Byte := 61

/-- The character encoding a 6-bit value. -/
def b64Char (v : Nat) : Byte := encodeStd.getD (v &&& 0x3F) 0

/-- Model of `base64.StdEncoding.EncodeToString`. -/
def EncodeToString : Str → Str
  | [] => []
  | [a] =>
    let v := a.val <<< 16
    [b64Char (v >>> 18), b64Char (v >>> 12), stdPadding, stdPadding]
  | [a, b] =>
    let v := (a.val <<< 16) ||| (b.val <<< 8)
    [b64Char (v >>> 18), b64Char (v >>> 12), b64Char (v >>> 6), stdPadding]
  | a :: b :: c :: rest =>
    let v := ((a.val <<< 16) ||| (b.val <<< 8)) ||| c.val
    b64Char (v >>> 18) :: b64Char (v >>> 12) :: b64Char (v >>> 6) :: b64Char v
      :: EncodeToString rest

/-! ## `time` -/

/-! An instant (`time.Time`) is an integer: the nanoseconds since the Unix epoch,
1970-01-01 00:00:00 UTC.  A `time.Duration` is an integer number of nanoseconds. -/

/-- Nanoseconds in a second. -/
def Second : Int := 1000000000

/-- Nanoseconds in an hour. -/
def Hour : Int := 3600 * Second

/-- Nanoseconds in a day. -/
def Day : Int := 24 * Hour

/-- Gregorian leap years. -/
def isLeap (year : Int) : Bool := year % 4 = 0 ∧ (year % 100 ≠ 0 ∨ year % 400 = 0)

/-- Number of days of month `m` (1 to 12) of `year`. -/
def daysIn (m : Nat) (year : Int) : Nat :=
  if m = 2 then (if isLeap year then 29 else 28)
  else if m = 4 ∨ m = 6 ∨ m = 9 ∨ m = 11 then 30 else 31

/-- Days before the first of month `m` in a common year. -/
def daysBefore (m : Nat) : Nat :=
  [0, 31, 59, 90, 120, 151, 181, 212, 243, 273, 304, 334, 365].getD (m - 1) 0

/-- Days from 1970-01-01 to the given proleptic Gregorian date, as `time.Date` computes
them: whole years, then the months before `m` (one more after February of a leap year),
then the days before `d`. -/
def daysFromCivil (year : Int) (m d : Nat) : Int :=
  let y := year - 1
  365 * (year - 1970) + (y / 4 - y / 100 + y / 400 - 477)
    + daysBefore m + (if isLeap year ∧ m ≥ 3 then 1 else 0) + (d - 1 : Int)

/-- Year, month and day of the day that lies `z` days after 1970-01-01. -/
def civilFromDays (z : Int) : Int × Nat × Nat :=
  let z := z + 719468
  let era := z / 146097
  let doe := (z - era * 146097).toNat
  let yoe := (doe - doe / 1460 + doe / 36524 - doe / 146096) / 365
  let doy := doe - (365 * yoe + yoe / 4 - yoe / 100)
  let mp := (5 * doy + 2) / 153
  let d := doy - (153 * mp + 2) / 5 + 1
  let m := if mp < 10 then mp + 3 else mp - 9
  ((yoe : Int) + era * 400 + (if m ≤ 2 then 1 else 0), m, d)

/-- Two decimal digits of `x`, zero padded (`appendInt(b, x, 2)` for `x < 100`). -/
def pad2 (x : Nat) : Str := [ldigits.getD (x / 10 % 10) 0, ldigits.getD (x % 10) 0]

/-- Model of `t.Format("060102")` for the instant `t` shown in a zone `offset` seconds
east of UTC: the last two digits of the year, the month and the day, two digits each. -/
def Format (t : Int) (offset : Int) : Str :=
  let ymd := civilFromDays ((t / Second + offset) / 86400)
  pad2 (ymd.1.natAbs % 100) ++ pad2 ymd.2.1 ++ pad2 ymd.2.2

/-- Whether `s[i]` exists and is a decimal digit. -/
def isDigit (s : Str) (i : Nat) : Bool :=
  match s.get? i with
  | none => false
  | some c => 48 ≤ c.val ∧ c.val ≤ 57

/-- The helper `atoi` of package `time`: an optional sign followed by digits only. -/
def atoi (s : Str) : Option Int :=
  let neg := s.head? = some 45
  let s := if s.head? = some 45 ∨ s.head? = some 43 then s.drop 1 else s
  if s.all (fun c => 48 ≤ c.val ∧ c.val ≤ 57) then
    let x : Int := (s.foldl (fun acc c => acc * 10 + (c.val - 48)) 0 : Nat)
    some (if neg then -x else x)
  else none

/-- The helper `getnum(s, true)` of package `time`: exactly two leading digits. -/
def getnum (s : Str) : Option (Nat × Str) :=
  if !isDigit s 0 then none
  else if !isDigit s 1 then none
  else some (((s.getD 0 0).val - 48) * 10 + ((s.getD 1 0).val - 48), s.drop 2)

/-- Model of `time.Parse("060102", value)`: `some t` with `t` the instant of midnight UTC
of the date when the call returns a nil error, `none` otherwise.  A two-character year
`yy` stands for `19yy` when `yy ≥ 69` and for `20yy` otherwise. -/
def Parse (value : Str) : Option Int :=
  if value.length < 2 then none
  else match atoi (value.take 2) with
    | none => none
    | some yy =>
      let year := if yy ≥ 69 then yy + 1900 else yy + 2000
      match getnum (value.drop 2) with
      | none => none
      | some (month, value) =>
        if month ≤ 0 ∨ 12 < month then none
        else match getnum value with
          | none => none
          | some (day, value) =>
            if value.length > 0 then none
            else if day < 1 ∨ day > daysIn month year then none
            else some (daysFromCivil year month day * Day)

/-- Model of `time.Since(then)` at wall-clock instant `now`: the elapsed nanoseconds,
saturated to the range of `Duration` (a signed 64-bit integer). -/
def Since (now then_ : Int) : Int :=
  let d := now - then_
  if d > 2 ^ 63 - 1 then 2 ^ 63 - 1 else if d < -(2 ^ 63) then -(2 ^ 63) else d

/-- Model of `Duration.Hours`: whole hours plus the remaining nanoseconds as a fraction of
an hour.  Go evaluates the sum in `float64`; exact rationals are used here.  The only use
of the value is the comparison `Hours * 2 ≤ 48`, on which the two agree for every
64-bit duration: rounding is monotone, 24 and 48 are exact in `float64`, and the least
excess over 24 hours, one nanosecond, is many units in the last place of 24. -/
def Hours (d : Int) : ℚ := (d.tdiv Hour : ℚ) + (d.tmod Hour : ℚ) / (60 * 60 * 1000000000)

/-! ## The engine -/

/-- State of the SHA-1 `hash.Hash`: the bytes written since the last `Reset`. -/
structure Hasher where
  written : Str
  deriving DecidableEq

/-- `sha1.New()`. -/
def Hasher.New : Hasher := ⟨[]⟩

/-- `Reset` forgets everything written. -/
def Hasher.Reset (_ : Hasher) : Hasher := ⟨[]⟩

/-- `Write` appends to the running message. -/
def Hasher.Write (h : Hasher) (p : Str) : Hasher := ⟨h.written ++ p⟩

/-- `Sum(b)` appends the digest of the running message to `b`. -/
def Hasher.Sum (h : Hasher) (b : Str) : Str := b ++ sha1 h.written

/-- A Go `error` value. -/
abbrev Error := String

/-- Hash provides an implementation of hashcash v1. -/
structure Hash where
  hasher : Hasher
  bits : Nat
  zeros : Nat
  saltLen : Nat
  extra : Str
  deriving DecidableEq

/-- The conversion `float64(u)` of an unsigned 64-bit integer, as the integer it denotes:
`u` itself below `2 ^ 53`, otherwise `u` rounded to 53 significant bits, ties to even. -/
def toFloat64 (u : Nat) : Nat :=
  if u < 2 ^ 53 then u
  else
    let e := Nat.log2 u - 52
    let q := u >>> e
    let r := u % 2 ^ e
    let half := 2 ^ (e - 1)
    (if r > half ∨ (r = half ∧ q % 2 = 1) then q + 1 else q) * 2 ^ e

/-- New creates a new Hash with specified options.  `zeros` is
`uint(math.Ceil(float64(bits) / 4.0))`: the division by 4 and the ceiling are exact in
`float64`, so it is the ceiling of a quarter of `float64(bits)`. -/
def New (bits saltLen : Nat) (extra : Str) : Hash :=
  { hasher := Hasher.New, bits := bits, zeros := (toFloat64 bits + 3) / 4, saltLen := saltLen,
    extra := extra }

/-- The inner loop of `checkZeros`, `for mask := byte(0x80); mask > 0; mask >>= 1`:
counts the zero bits of `b` from the top until the first set bit.  The first argument
bounds the number of iterations (the mask takes eight non-zero values). -/
def maskLoop (b : Byte) : Nat → Nat → Nat → Nat
  | 0, _, zeroBits => zeroBits
  | fuel + 1, mask, zeroBits =>
    if mask > 0 then
      if b.val &&& mask = 0 then maskLoop b fuel (mask >>> 1) (zeroBits + 1)
      else zeroBits
    else zeroBits

/-- The outer loop of `checkZeros`, `for _, b := range sum`: a zero byte adds 8 and the
scan continues; the first non-zero byte adds its own leading zero bits and ends it. -/
def zeroBitsLoop : Str → Nat → Nat
  | [], zeroBits => zeroBits
  | b :: rest, zeroBits =>
    if b = 0 then zeroBitsLoop rest (zeroBits + 8)
    else maskLoop b 8 0x80 zeroBits

/-- The value of `zeroBits` when `checkZeros` reaches its `return`. -/
def countLeadingZeroBits (sum : Str) : Nat := zeroBitsLoop sum 0

/-- The method `checkZeros`: whether the digest of the stamp has at least `bits` leading
zero bits, together with the engine afterwards (its hasher has been reset and fed). -/
def Hash.checkZeros (h : Hash) (stamp : Str) : Bool × Hash :=
  let hasher := (h.hasher.Reset).Write stamp
  let sum := hasher.Sum []
  (decide (countLeadingZeroBits sum ≥ h.bits), { h with hasher := hasher })

/-- The method `checkDate` at wall-clock instant `now`. -/
def Hash.checkDate (_ : Hash) (now : Int) (stamp : Str) : Bool :=
  let fields := split colon stamp
  if fields.length ≠ 7 then false
  else match Parse (fields.getD 2 []) with
    | none => false
    | some then_ => decide (Hours (Since now then_) * 2 ≤ 48)

/-- The method `Check` at wall-clock instant `now`: the verdict and the engine
afterwards. -/
def Hash.Check (h : Hash) (now : Int) (stamp : Str) : Bool × Hash :=
  let fields := split colon stamp
  if fields.length ≠ 7 then (false, h)
  else match ParseUint (fields.getD 1 []) 32 with
    | none => (false, h)
    | some stampBits =>
      if stampBits < h.bits then (false, h)
      else if !h.checkDate now stamp then (false, h)
      else h.checkZeros stamp

/-- What a call of `Mint` reads from outside the engine: the outcome of `rand.Read` (an
error, or a source of random bytes), the instant `time.Now()` and the offset of the local
time zone at that instant, in seconds east of UTC. -/
structure MintEnv where
  rand : Except Error (Nat → Byte)
  now : Int
  zoneOffset : Int

/-- The method `getSalt`: `saltLen` random bytes, base64-encoded, cut to `saltLen`
characters. -/
def Hash.getSalt (h : Hash) (rand : Except Error (Nat → Byte)) : Str × Option Error :=
  match rand with
  | .error err => ([], some err)
  | .ok src =>
    let buf := (List.range h.saltLen).map src
    let salt := EncodeToString buf
    (salt.take h.saltLen, none)

/-- The search loop of `Mint` from a given counter, run for at most `fuel` iterations:
`none` when no iteration among them returns.  Go's `int` counter is taken as a natural
number: with 64-bit integers the loop would have to run `2 ^ 63` times to leave the
non-negative range. -/
def Hash.mintLoop (date resource salt : Str) : Nat → Hash → Nat → Option (Str × Hash)
  | 0, _, _ => none
  | fuel + 1, h, counter =>
    let stamp := sprintfStamp h.bits date resource h.extra salt counter
    let r := h.checkZeros stamp
    if r.1 then some (stamp, r.2) else Hash.mintLoop date resource salt fuel r.2 (counter + 1)

/-- The method `Mint`, its loop run for at most `fuel` iterations: `none` when the call
has not returned by then, otherwise the returned pair (stamp, error) and the engine
afterwards. -/
def Hash.Mint (h : Hash) (fuel : Nat) (env : MintEnv) (resource : Str) :
    Option ((Str × Option Error) × Hash) :=
  match h.getSalt env.rand with
  | (_, some err) => some (([], some err), h)
  | (salt, none) =>
    let date := Format env.now env.zoneOffset
    match Hash.mintLoop date resource salt fuel h 0 with
    | none => none
    | some (stamp, h') => some ((stamp, none), h')

/-- `Mint` returns the stamp `s` with a nil error, leaving the engine as `h'`. -/
def Hash.MintReturns (h : Hash) (env : MintEnv) (resource : Str) (s : Str) (h' : Hash) :
    Prop :=
  ∃ fuel, h.Mint fuel env resource = some ((s, none), h')

/-! ## Reference definitions for the leading-zero count -/

/-- The eight bits of a byte, most significant first. -/
def byteBits (b : Byte) : List Bool := (List.range 8).map (fun i => b.val.testBit (7 - i))

/-- A byte sequence read as a bit string, most significant bit of each byte first. -/
def bitString (bs : Str) : List Bool := bs.flatMap byteBits

/-- Number of leading zero bits of a bit string. -/
def leadingZeros (bits : List Bool) : Nat := (bits.takeWhile (fun x => x == false)).length

/-! ## Reference definitions for the number fields of a stamp -/

/-- The byte of an ASCII character. -/
def charByte (c : Char) : Byte := Fin.ofNat c.toNat

/-- Decimal text of a number: no sign, no leading zeros, `0` for zero. -/
def decimalText (n : Nat) : Str := (Nat.toDigits 10 n).map charByte

/-- Lowercase hexadecimal text of a number: no leading `0x`, no leading zeros, `0` for
zero. -/
def hexText (n : Nat) : Str := (Nat.toDigits 16 n).map charByte

/-! ## Reference definitions for the salt and the bits field -/

/-- Membership in the base64 alphabet `A-Z`, `a-z`, `0-9`, `+`, `/`. -/
def isBase64Char (c : Byte) : Bool :=
  decide ((65 ≤ c.val ∧ c.val ≤ 90) ∨ (97 ≤ c.val ∧ c.val ≤ 122) ∨ (48 ≤ c.val ∧ c.val ≤ 57)
    ∨ c.val = 43 ∨ c.val = 47)

/-- A decimal digit `0-9`. -/
def isDecDigit (c : Byte) : Bool := decide (48 ≤ c.val ∧ c.val ≤ 57)

/-- The number denoted by a string of decimal digits (leading zeros allowed). -/
def decValue (s : Str) : Nat := s.foldl (fun acc c => acc * 10 + (c.val - 48)) 0

/-! ## Elementary facts about the engine -/


theorem checkZeros_fst (h : Hash) (stamp : Str) :
    (h.checkZeros stamp).1 = decide (h.bits ≤ countLeadingZeroBits (sha1 stamp)) := by
  simp [Hash.checkZeros, Hasher.Reset, Hasher.Write, Hasher.Sum]

theorem checkZeros_snd (h : Hash) (stamp : Str) :
    (h.checkZeros stamp).2 = { h with hasher := ⟨stamp⟩ } := by
  simp [Hash.checkZeros, Hasher.Reset, Hasher.Write]

theorem hours_eq (d : Int) : Hours d = (d : ℚ) / 3600000000000 := by
  have h := Int.tdiv_add_tmod d Hour
  have h2 : ((Hour * d.tdiv Hour + d.tmod Hour : Int) : ℚ) = (d : ℚ) := by rw [h]
  have h3 : ((Hour : Int) : ℚ) = 3600000000000 := by norm_num [Hour, Second]
  push_cast at h2
  rw [h3] at h2
  unfold Hours
  rw [← h2]
  ring

theorem hours_le_iff (d : Int) : Hours d * 2 ≤ 48 ↔ d ≤ 24 * Hour := by
  rw [hours_eq]
  have h3 : (24 * Hour : Int) = 86400000000000 := by norm_num [Hour, Second]
  rw [h3]
  constructor
  · intro h
    have : (d : ℚ) ≤ 86400000000000 := by linarith
    exact_mod_cast this
  · intro h
    have : (d : ℚ) ≤ 86400000000000 := by exact_mod_cast h
    linarith

theorem since_le_iff (now t : Int) : Since now t ≤ 24 * Hour ↔ now - t ≤ 24 * Hour := by
  have h3 : (24 * Hour : Int) = 86400000000000 := by norm_num [Hour, Second]
  rw [h3]
  unfold Since
  simp only []
  split_ifs <;> omega

theorem checkDate_true_iff (h : Hash) (now : Int) (s : Str) :
    h.checkDate now s = true ↔
      (split colon s).length = 7 ∧
      ∃ d, Parse ((split colon s).getD 2 []) = some d ∧ now - d ≤ 24 * Hour := by
  unfold Hash.checkDate
  simp only []
  by_cases hlen : (split colon s).length = 7
  · rw [if_neg (not_not.mpr hlen)]
    cases hp : Parse ((split colon s).getD 2 []) with
    | none =>
      constructor
      · intro hc
        cases hc
      · rintro ⟨_, d, hd, _⟩
        cases hd
    | some d =>
      simp only [decide_eq_true_eq, hours_le_iff, since_le_iff]
      constructor
      · intro hc
        exact ⟨hlen, d, rfl, hc⟩
      · rintro ⟨_, d', hd, hle⟩
        cases hd
        exact hle
  · rw [if_pos hlen]
    constructor
    · intro hc
      cases hc
    · rintro ⟨h7, _⟩
      exact absurd h7 hlen

theorem check_true_iff (h : Hash) (now : Int) (s : Str) :
    (h.Check now s).1 = true ↔
      (split colon s).length = 7 ∧
      (∃ v, ParseUint ((split colon s).getD 1 []) 32 = some v ∧ h.bits ≤ v) ∧
      (∃ d, Parse ((split colon s).getD 2 []) = some d ∧ now - d ≤ 24 * Hour) ∧
      h.bits ≤ countLeadingZeroBits (sha1 s) := by
  unfold Hash.Check
  simp only []
  by_cases hlen : (split colon s).length = 7
  · rw [if_neg (not_not.mpr hlen)]
    cases hp : ParseUint ((split colon s).getD 1 []) 32 with
    | none =>
      constructor
      · intro hc
        cases hc
      · rintro ⟨_, ⟨v, hv, _⟩, _⟩
        cases hv
    | some v =>
      simp only []
      by_cases hv : v < h.bits
      · rw [if_pos hv]
        constructor
        · intro hc
          cases hc
        · rintro ⟨_, ⟨v', hv', hle⟩, _⟩
          cases hv'
          omega
      · rw [if_neg hv]
        by_cases hd : h.checkDate now s = true
        · have hd' := (checkDate_true_iff h now s).1 hd
          rw [hd]
          simp only [Bool.not_true, Bool.false_eq_true, if_false, checkZeros_fst,
            decide_eq_true_eq]
          constructor
          · intro hz
            exact ⟨hlen, ⟨v, rfl, by omega⟩, hd'.2, hz⟩
          · rintro ⟨_, _, _, hz⟩
            exact hz
        · have hd' : ¬ ∃ d, Parse ((split colon s).getD 2 []) = some d ∧ now - d ≤ 24 * Hour :=
            fun hex => hd ((checkDate_true_iff h now s).2 ⟨hlen, hex⟩)
          simp only [Bool.not_eq_true] at hd
          rw [hd]
          simp only [Bool.not_false, if_true]
          constructor
          · intro hc
            cases hc
          · rintro ⟨_, _, hex, _⟩
            exact absurd hex hd'
  · rw [if_pos hlen]
    constructor
    · intro hc
      cases hc
    · rintro ⟨h7, _⟩
      exact absurd h7 hlen

theorem parse_midnight (value : Str) (d : Int) (hd : Parse value = some d) : d % Day = 0 := by
  unfold Parse at hd
  iterate 8 (all_goals (first | (exact (Option.some_ne_none _ hd.symm).elim) | split at hd | skip))
  all_goals (
    simp only [] at hd
    split_ifs at hd
    cases hd
    exact Int.mul_emod_left _ _)

/-! ## Check: structure, rejection rules, monotonicity, expiry -/

/-- C2. `Check` is exactly the conjunction of its four steps: the text splits on `':'`
into 7 fields, field 1 is accepted by `ParseUint(·, 10, 32)` with a value at least the
engine's `bits`, field 2 is accepted by `time.Parse` and lies at most 24 hours before the
check instant, and the SHA-1 digest of the whole text has at least the engine's `bits`
leading zero bits. -/
theorem check_iff_four_steps (h : Hash) (now : Int) (s : Str) :
    (h.Check now s).1 = true ↔
      (split colon s).length = 7 ∧
      (∃ stampBits, ParseUint ((split colon s).getD 1 []) 32 = some stampBits ∧
        stampBits ≥ h.bits) ∧
      (∃ d, Parse ((split colon s).getD 2 []) = some d ∧ now - d ≤ 24 * Hour) ∧
      countLeadingZeroBits (sha1 s) ≥ h.bits :=
  check_true_iff h now s

/-- C4. Monotonicity in difficulty: a text accepted at instant `t` by an engine with
`bits = b` is accepted at `t` by every engine with `bits = b'` where `b' ≤ b`. -/
theorem check_mono_bits (h h' : Hash) (t : Int) (s : Str) (hb : h'.bits ≤ h.bits)
    (hc : (h.Check t s).1 = true) : (h'.Check t s).1 = true := by
  obtain ⟨h7, ⟨v, hv, hle⟩, hd, hz⟩ := (check_true_iff h t s).1 hc
  exact (check_true_iff h' t s).2 ⟨h7, ⟨v, hv, by omega⟩, hd, by omega⟩

set_option maxRecDepth 100000 in
/-- Witness for C4: a stamp with 8 leading zero digest bits, accepted at difficulty 8 on
its own day, is accepted at difficulty 4 by an engine with another salt length and
extension. -/
theorem check_mono_bits_witness :
    ((New 4 16 (str "x")).Check 1704067200000000000
      (str "1:8:240101:test@example.com::BSpPdJm+:dd")).1 = true :=
  check_mono_bits (New 8 8 []) (New 4 16 (str "x")) 1704067200000000000
    (str "1:8:240101:test@example.com::BSpPdJm+:dd") (by decide)
    ((check_true_iff _ _ _).2
      ⟨by decide, ⟨8, by decide, by decide⟩, ⟨1704067200000000000, by decide, by decide⟩,
        by decide⟩)

/-- C6. Field-count rejection: a text whose split on `':'` does not give exactly 7 fields
is rejected by every engine at every instant. -/
theorem check_rejects_field_count (h : Hash) (now : Int) (s : Str)
    (hlen : (split colon s).length ≠ 7) : (h.Check now s).1 = false := by
  unfold Hash.Check
  simp only []
  rw [if_pos hlen]

/-- Witness for C6: the five-field text `1:20:240101:foo:bar` is rejected, also by an
engine that requires no work. -/
theorem check_rejects_field_count_witness :
    ((New 0 8 []).Check 1704067200000000000 (str "1:20:240101:foo:bar")).1 = false :=
  check_rejects_field_count (New 0 8 []) 1704067200000000000 (str "1:20:240101:foo:bar")
    (by decide)

/-- C7. Difficulty-claim rejection: a 7-field stamp whose bits field parses to a value
below the engine's `bits` is rejected, whatever its date field and its digest. -/
theorem check_rejects_low_claim (h : Hash) (now : Int) (s : Str) (stampBits : Nat)
    (_hlen : (split colon s).length = 7)
    (hparse : ParseUint ((split colon s).getD 1 []) 32 = some stampBits)
    (hlow : stampBits < h.bits) : (h.Check now s).1 = false := by
  cases hc : (h.Check now s).1 with
  | false => rfl
  | true =>
    obtain ⟨_, ⟨v, hv, hle⟩, _⟩ := (check_true_iff h now s).1 hc
    rw [hparse] at hv
    cases hv
    omega

set_option maxRecDepth 100000 in
/-- Witness for C7: a stamp claiming 7 bits whose digest has 8 leading zero bits and
whose date is current is rejected by an engine requiring 8 bits. -/
theorem check_rejects_low_claim_witness :
    countLeadingZeroBits (sha1 (str "1:7:240101:test@example.com::BSpPdJm+:cf")) ≥ 8 ∧
    (New 8 8 []).checkDate 1704067200000000000
      (str "1:7:240101:test@example.com::BSpPdJm+:cf") = true ∧
    ((New 8 8 []).Check 1704067200000000000
      (str "1:7:240101:test@example.com::BSpPdJm+:cf")).1 = false :=
  ⟨by decide,
   (checkDate_true_iff _ _ _).2 ⟨by decide, 1704067200000000000, by decide, by decide⟩,
   check_rejects_low_claim (New 8 8 []) 1704067200000000000
    (str "1:7:240101:test@example.com::BSpPdJm+:cf") 7 (by decide) (by decide) (by decide)⟩

/-- C8. Expiry boundary: for a 7-field stamp, if the date field parses to the instant `d`
(always a midnight UTC), `checkDate` at instant `now` holds exactly when
`now - d ≤ 24 h`; so it holds 23 hours and exactly 24 hours after `d`, and fails 24 hours
and one nanosecond, and 25 hours, after `d`.  If the date field does not parse,
`checkDate` fails. -/
theorem checkDate_expiry_boundary (h : Hash) (s : Str)
    (hlen : (split colon s).length = 7) :
    (∀ d, Parse ((split colon s).getD 2 []) = some d →
      d % Day = 0 ∧
      (∀ now, h.checkDate now s = true ↔ now - d ≤ 24 * Hour) ∧
      h.checkDate (d + 23 * Hour) s = true ∧
      h.checkDate (d + 24 * Hour) s = true ∧
      h.checkDate (d + 24 * Hour + 1) s = false ∧
      h.checkDate (d + 25 * Hour) s = false) ∧
    (Parse ((split colon s).getD 2 []) = none → ∀ now, h.checkDate now s = false) := by
  have key : ∀ d, Parse ((split colon s).getD 2 []) = some d →
      ∀ now, h.checkDate now s = true ↔ now - d ≤ 24 * Hour := by
    intro d hd now
    rw [checkDate_true_iff]
    constructor
    · rintro ⟨_, d', hd', hle⟩
      rw [hd] at hd'
      cases hd'
      exact hle
    · intro hle
      exact ⟨hlen, d, hd, hle⟩
  have hH : Hour = 3600000000000 := by norm_num [Hour, Second]
  refine ⟨fun d hd => ⟨parse_midnight _ _ hd, key d hd, ?_, ?_, ?_, ?_⟩, ?_⟩
  · rw [key d hd, hH]
    omega
  · rw [key d hd, hH]
    omega
  · rw [← Bool.not_eq_true, key d hd, hH]
    omega
  · rw [← Bool.not_eq_true, key d hd, hH]
    omega
  · intro hnone now
    rw [← Bool.not_eq_true, checkDate_true_iff]
    rintro ⟨_, d, hd, _⟩
    rw [hnone] at hd
    cases hd

/-- Witness for C8: the stamp dated `240101` parses to 2024-01-01 00:00 UTC; it passes
the date check 24 hours later and fails it one nanosecond after that. -/
theorem checkDate_expiry_boundary_witness :
    Parse (str "240101") = some 1704067200000000000 ∧
    (New 20 8 []).checkDate (1704067200000000000 + 24 * Hour)
      (str "1:20:240101:foo:bar:baz:0") = true ∧
    (New 20 8 []).checkDate (1704067200000000000 + 24 * Hour + 1)
      (str "1:20:240101:foo:bar:baz:0") = false :=
  have w := (checkDate_expiry_boundary (New 20 8 []) (str "1:20:240101:foo:bar:baz:0")
    (by decide)).1 1704067200000000000 (by decide)
  ⟨by decide, w.2.2.2.1, w.2.2.2.2.1⟩

/-! ## The leading-zero count -/

theorem maskLoop_acc (b : Byte) (fuel mask z : Nat) :
    maskLoop b fuel mask z = z + maskLoop b fuel mask 0 := by
  induction fuel generalizing mask z with
  | zero => simp [maskLoop]
  | succ n ih =>
    unfold maskLoop
    split_ifs
    · rw [ih (mask >>> 1) (z + 1), ih (mask >>> 1) (0 + 1)]
      omega
    · rfl
    · rfl

theorem maskLoop_zero_mask (b : Byte) (fuel z : Nat) : maskLoop b fuel 0 z = z := by
  cases fuel <;> simp [maskLoop]

/-- Eight iterations are all the mask loop ever runs: more fuel changes nothing. -/
theorem maskLoop_fuel (b : Byte) (fuel mask z n : Nat) (hm : mask < 2 ^ fuel) :
    maskLoop b (fuel + n) mask z = maskLoop b fuel mask z := by
  induction fuel generalizing mask z with
  | zero =>
    have h0 : mask = 0 := by simpa using hm
    subst h0
    rw [maskLoop_zero_mask, maskLoop_zero_mask]
  | succ k ih =>
    have hs : mask >>> 1 < 2 ^ k := by
      rw [Nat.shiftRight_eq_div_pow]
      have : mask < 2 ^ k * 2 := by rwa [pow_succ] at hm
      omega
    rw [show k + 1 + n = (k + n) + 1 by omega]
    unfold maskLoop
    rw [ih _ _ hs]

set_option maxRecDepth 100000 in
theorem maskLoop_byte : ∀ b : Byte, b ≠ 0 →
    maskLoop b 8 0x80 0 = leadingZeros (byteBits b) ∧ leadingZeros (byteBits b) < 8 := by
  decide

theorem byteBits_zero : byteBits 0 = List.replicate 8 false := by decide

theorem byteBits_length (b : Byte) : (byteBits b).length = 8 := by
  simp [byteBits]

theorem leadingZeros_replicate_append (n : Nat) (l : List Bool) :
    leadingZeros (List.replicate n false ++ l) = n + leadingZeros l := by
  induction n with
  | zero => simp
  | succ k ih =>
    have : leadingZeros (false :: (List.replicate k false ++ l))
        = leadingZeros (List.replicate k false ++ l) + 1 := by
      simp [leadingZeros, List.takeWhile]
    rw [List.replicate_succ, List.cons_append, this, ih]
    omega

theorem leadingZeros_append_of_lt (l1 l2 : List Bool) (h : leadingZeros l1 < l1.length) :
    leadingZeros (l1 ++ l2) = leadingZeros l1 := by
  induction l1 with
  | nil => simp [leadingZeros] at h
  | cons x xs ih =>
    cases x with
    | true => simp [leadingZeros, List.takeWhile]
    | false =>
      have e1 : leadingZeros (false :: xs) = leadingZeros xs + 1 := by
        simp [leadingZeros, List.takeWhile]
      have e2 : leadingZeros (false :: (xs ++ l2)) = leadingZeros (xs ++ l2) + 1 := by
        simp [leadingZeros, List.takeWhile]
      rw [List.cons_append, e1, e2, ih]
      rw [e1] at h
      simp only [List.length_cons] at h
      omega

theorem zeroBitsLoop_eq (bs : Str) (z : Nat) :
    zeroBitsLoop bs z = z + leadingZeros (bitString bs) := by
  induction bs generalizing z with
  | nil => simp [zeroBitsLoop, bitString, leadingZeros]
  | cons b rest ih =>
    have hbs : bitString (b :: rest) = byteBits b ++ bitString rest := by
      simp [bitString]
    unfold zeroBitsLoop
    by_cases hb : b = 0
    · rw [if_pos hb, ih, hbs, hb, byteBits_zero, leadingZeros_replicate_append]
      omega
    · rw [if_neg hb, maskLoop_acc, hbs, (maskLoop_byte b hb).1,
        leadingZeros_append_of_lt _ _ (by rw [byteBits_length]; exact (maskLoop_byte b hb).2)]

theorem countLeadingZeroBits_eq (bs : Str) :
    countLeadingZeroBits bs = leadingZeros (bitString bs) := by
  unfold countLeadingZeroBits
  rw [zeroBitsLoop_eq]
  omega

theorem bitString_replicate_zero (k : Nat) (l : Str) :
    bitString (List.replicate k 0 ++ l) = List.replicate (8 * k) false ++ bitString l := by
  induction k with
  | zero => simp
  | succ n ih =>
    have : bitString ((0 : Byte) :: (List.replicate n 0 ++ l))
        = byteBits 0 ++ bitString (List.replicate n 0 ++ l) := by
      simp [bitString]
    rw [List.replicate_succ, List.cons_append, this, ih, byteBits_zero, ← List.append_assoc,
      ← List.replicate_add]
    congr 2
    omega

theorem countLeadingZeroBits_le (bs : Str) : countLeadingZeroBits bs ≤ 8 * bs.length := by
  rw [countLeadingZeroBits_eq]
  have h1 : leadingZeros (bitString bs) ≤ (bitString bs).length := by
    unfold leadingZeros
    exact (List.takeWhile_sublist _).length_le
  have h2 : (bitString bs).length = 8 * bs.length := by
    clear h1
    induction bs with
    | nil => simp [bitString]
    | cons b rest ih =>
      have : bitString (b :: rest) = byteBits b ++ bitString rest := by simp [bitString]
      rw [this, List.length_append, byteBits_length, ih, List.length_cons]
      omega
  omega

/-- C5. Leading-zero correctness: the count computed by the loop of `checkZeros` is the
number of leading zero bits of the digest read most significant bit first; it is `8 * k`
plus the leading zero bits of byte `k` when byte `k` is the first non-zero one, whatever
follows it, and `8 * length` when every byte is zero; a sequence beginning `00 0F` gives
exactly 12. -/
theorem countLeadingZeroBits_correct :
    (∀ sum : Str, countLeadingZeroBits sum = leadingZeros (bitString sum)) ∧
    (∀ (k : Nat) (b : Byte) (rest : Str), b ≠ 0 →
      countLeadingZeroBits (List.replicate k 0 ++ b :: rest)
        = 8 * k + leadingZeros (byteBits b) ∧ leadingZeros (byteBits b) < 8) ∧
    (∀ k : Nat, countLeadingZeroBits (List.replicate k 0) = 8 * k) ∧
    (∀ rest : Str, countLeadingZeroBits (0x00 :: 0x0F :: rest) = 12) := by
  refine ⟨countLeadingZeroBits_eq, ?_, ?_, ?_⟩
  · intro k b rest hb
    have hbs : bitString (b :: rest) = byteBits b ++ bitString rest := by
      simp [bitString]
    refine ⟨?_, (maskLoop_byte b hb).2⟩
    rw [countLeadingZeroBits_eq, bitString_replicate_zero, leadingZeros_replicate_append, hbs,
      leadingZeros_append_of_lt _ _ (by rw [byteBits_length]; exact (maskLoop_byte b hb).2)]
  · intro k
    have := bitString_replicate_zero k []
    rw [List.append_nil] at this
    rw [countLeadingZeroBits_eq, this]
    simp [bitString, leadingZeros]
  · intro rest
    rfl

/-- Witness for C5: two zero bytes, then `0x1F`, then zero bytes again, count
`8 * 2 + 3 = 19` leading zero bits. -/
theorem countLeadingZeroBits_correct_witness :
    countLeadingZeroBits [0, 0, 0x1F, 0, 0] = 19 :=
  have w := (countLeadingZeroBits_correct.2.1 2 0x1F [0, 0] (by decide)).1
  have e : leadingZeros (byteBits 0x1F) = 3 := by decide
  by rw [e] at w; exact w

/-! ## Splitting and formatting -/

theorem split_ne_nil (sep : Byte) (s : Str) : split sep s ≠ [] := by
  induction s with
  | nil => simp [split]
  | cons c cs ih =>
    unfold split
    split_ifs
    · simp
    · split
      · simp
      · simp

theorem split_cons (sep c : Byte) (cs : Str) :
    split sep (c :: cs) =
      if c = sep then [] :: split sep cs
      else match split sep cs with
        | [] => [[c]]
        | f :: fs => (c :: f) :: fs := by
  rw [split]

/-- A text without separator is a single field. -/
theorem split_of_not_mem (sep : Byte) (s : Str) (h : sep ∉ s) : split sep s = [s] := by
  induction s with
  | nil => rfl
  | cons c cs ih =>
    have hc : c ≠ sep := fun e => h (by simp [e])
    have hcs : sep ∉ cs := fun e => h (by simp [e])
    rw [split_cons, if_neg hc, ih hcs]

/-- A first field without separator, followed by a separator, is split off. -/
theorem split_append_sep (sep : Byte) (f rest : Str) (h : sep ∉ f) :
    split sep (f ++ sep :: rest) = f :: split sep rest := by
  induction f with
  | nil =>
    show split sep (sep :: rest) = _
    rw [split_cons, if_pos rfl]
  | cons c cs ih =>
    have hc : c ≠ sep := fun e => h (by simp [e])
    have hcs : sep ∉ cs := fun e => h (by simp [e])
    rw [List.cons_append, split_cons, if_neg hc, ih hcs]

theorem ldigits_val (i : Nat) (hi : i < 10) : (ldigits.getD i 0).val = 48 + i := by
  have : ∀ j : Fin 10, (ldigits.getD j.val 0).val = 48 + j.val := by decide
  exact this ⟨i, hi⟩

theorem ldigits_ne_colon (i : Nat) : ldigits.getD i 0 ≠ colon := by
  by_cases hi : i < 16
  · have : ∀ j : Fin 16, ldigits.getD j.val 0 ≠ colon := by decide
    exact this ⟨i, hi⟩
  · have hlen : ldigits.length = 16 := by decide
    rw [List.getD_eq_default _ _ (by omega)]
    decide

theorem fmtDigits_no_colon (base fuel u : Nat) : colon ∉ fmtDigits base fuel u := by
  induction fuel generalizing u with
  | zero => simp [fmtDigits]
  | succ n ih =>
    unfold fmtDigits
    split_ifs
    · simp only [List.mem_append, List.mem_singleton, not_or]
      exact ⟨ih _, fun e => ldigits_ne_colon _ e.symm⟩
    · simp only [List.mem_singleton]
      exact fun e => ldigits_ne_colon _ e.symm

theorem fmtDec_no_colon (u : Nat) : colon ∉ fmtDec u := fmtDigits_no_colon _ _ _

theorem fmtHex_no_colon (u : Nat) : colon ∉ fmtHex u := fmtDigits_no_colon _ _ _

/-- More fuel than the value changes nothing in the digit loop. -/
theorem fmtDigits_fuel (base : Nat) (hb : 2 ≤ base) (fuel u : Nat) (h : u < fuel) :
    fmtDigits base fuel u = fmtDigits base (u + 1) u := by
  induction fuel using Nat.strong_induction_on generalizing u with
  | _ fuel ih =>
    cases fuel with
    | zero => omega
    | succ n =>
      unfold fmtDigits
      split_ifs with hge
      · have hlt : u / base < u := Nat.div_lt_self (by omega) (by omega)
        rw [ih n (by omega) (u / base) (by omega), ih u (by omega) (u / base) hlt]
      · rfl

theorem fmtDec_step (u : Nat) (h : 10 ≤ u) :
    fmtDec u = fmtDec (u / 10) ++ [ldigits.getD (u % 10) 0] := by
  unfold fmtDec
  have hlt : u / 10 < u := Nat.div_lt_self (by omega) (by omega)
  conv_lhs => unfold fmtDigits
  rw [if_pos h, fmtDigits_fuel 10 (by omega) u (u / 10) hlt]

theorem fmtDec_small (u : Nat) (h : u < 10) : fmtDec u = [ldigits.getD u 0] := by
  unfold fmtDec fmtDigits
  rw [if_neg (by omega)]

theorem fmtDec_ne_nil (u : Nat) : fmtDec u ≠ [] := by
  by_cases h : 10 ≤ u
  · rw [fmtDec_step u h]
    simp
  · rw [fmtDec_small u (by omega)]
    simp

theorem parseUintStep_digit (n d : Nat) (hd : d < 10) (hn : n ≤ 2 ^ 32 - 1) :
    parseUintStep (2 ^ 32 - 1) (some n) (ldigits.getD d 0)
      = if n * 10 + d ≤ 2 ^ 32 - 1 then some (n * 10 + d) else none := by
  have hv := ldigits_val d hd
  unfold parseUintStep
  simp only [hv]
  rw [if_pos (by omega)]
  simp only [show 48 + d - 48 = d by omega]
  rw [if_neg (by omega), if_neg (by omega)]
  have hmod : (n * 10 + d) % 2 ^ 64 = n * 10 + d := Nat.mod_eq_of_lt (by omega)
  rw [hmod]
  by_cases hle : n * 10 + d ≤ 2 ^ 32 - 1
  · rw [if_pos hle, if_neg (by omega)]
  · rw [if_neg hle, if_pos (by omega)]

theorem foldl_parseUintStep_fmtDec (u : Nat) :
    (fmtDec u).foldl (parseUintStep (2 ^ 32 - 1)) (some 0)
      = if u ≤ 2 ^ 32 - 1 then some u else none := by
  induction u using Nat.strong_induction_on with
  | _ u ih =>
    by_cases h : 10 ≤ u
    · rw [fmtDec_step u h, List.foldl_append, ih (u / 10) (by omega)]
      by_cases hq : u / 10 ≤ 2 ^ 32 - 1
      · rw [if_pos hq]
        simp only [List.foldl_cons, List.foldl_nil]
        rw [parseUintStep_digit _ _ (Nat.mod_lt _ (by omega)) hq]
        have : u / 10 * 10 + u % 10 = u := by omega
        rw [this]
      · rw [if_neg hq, if_neg (by omega)]
        simp [parseUintStep]
    · rw [fmtDec_small u (by omega)]
      simp only [List.foldl_cons, List.foldl_nil]
      rw [parseUintStep_digit 0 u (by omega) (by omega), if_pos (by omega), if_pos (by omega)]
      simp

/-- Reading back a `%d`-formatted number with `ParseUint(·, 10, 32)` gives the number
when it fits in 32 bits, and an error otherwise. -/
theorem parseUint_fmtDec (u : Nat) :
    ParseUint (fmtDec u) 32 = if u < 2 ^ 32 then some u else none := by
  unfold ParseUint
  rw [if_neg (fmtDec_ne_nil u), foldl_parseUintStep_fmtDec]
  by_cases h : u < 2 ^ 32
  · rw [if_pos h, if_pos (by omega)]
  · rw [if_neg h, if_neg (by omega)]

/-- The seven fields of a stamp whose date, resource, extension and salt hold no colon. -/
theorem split_sprintfStamp (bits : Nat) (date resource extra salt : Str) (counter : Nat)
    (hd : colon ∉ date) (hr : colon ∉ resource) (he : colon ∉ extra) (hs : colon ∉ salt) :
    split colon (sprintfStamp bits date resource extra salt counter)
      = [str "1", fmtDec bits, date, resource, extra, salt, fmtHex counter] := by
  have h1 : colon ∉ str "1" := by decide
  have e : sprintfStamp bits date resource extra salt counter
      = str "1" ++ colon :: (fmtDec bits ++ colon :: (date ++ colon :: (resource ++ colon ::
          (extra ++ colon :: (salt ++ colon :: fmtHex counter))))) := by
    have e1 : str "1:" = str "1" ++ [colon] := by decide
    simp [sprintfStamp, e1]
  rw [e, split_append_sep _ _ _ h1, split_append_sep _ _ _ (fmtDec_no_colon _),
    split_append_sep _ _ _ hd, split_append_sep _ _ _ hr, split_append_sep _ _ _ he,
    split_append_sep _ _ _ hs, split_of_not_mem _ _ (fmtHex_no_colon _)]

theorem fmtDigits_toDigitsCore (base : Nat) (hb : 2 ≤ base) (hb16 : base ≤ 16) (fuel u : Nat)
    (h : u < fuel) (ds : List Char) :
    (Nat.toDigitsCore base fuel u ds).map charByte
      = fmtDigits base fuel u ++ ds.map charByte := by
  have hdig : ∀ d : Fin 16, charByte (Nat.digitChar d.val) = ldigits.getD d.val 0 := by decide
  induction fuel generalizing u ds with
  | zero => omega
  | succ n ih =>
    have hd : charByte (Nat.digitChar (u % base)) = ldigits.getD (u % base) 0 :=
      hdig ⟨u % base, by have := Nat.mod_lt u (show 0 < base by omega); omega⟩
    unfold Nat.toDigitsCore fmtDigits
    simp only []
    by_cases hge : u ≥ base
    · have hq : u / base ≠ 0 := by
        intro e
        have := (Nat.div_eq_zero_iff (by omega)).1 e
        omega
      have hlt : u / base < n := by
        have : u / base < u := Nat.div_lt_self (by omega) (by omega)
        omega
      rw [if_neg hq, if_pos hge, ih _ hlt, List.map_cons, hd]
      simp
    · have hq : u / base = 0 := (Nat.div_eq_zero_iff (by omega)).2 (by omega)
      have hm : u % base = u := Nat.mod_eq_of_lt (by omega)
      rw [if_pos hq, if_neg hge, List.map_cons, hd, hm]
      simp

theorem fmtDec_eq_decimalText (u : Nat) : fmtDec u = decimalText u := by
  unfold fmtDec decimalText Nat.toDigits
  rw [fmtDigits_toDigitsCore 10 (by omega) (by omega) (u + 1) u (by omega) []]
  simp

theorem fmtHex_eq_hexText (u : Nat) : fmtHex u = hexText u := by
  unfold fmtHex hexText Nat.toDigits
  rw [fmtDigits_toDigitsCore 16 (by omega) (by omega) (u + 1) u (by omega) []]
  simp

/-! ## The search loop of Mint -/

theorem mintLoop_some_iff (date resource salt : Str) (fuel : Nat) (h : Hash) (c : Nat)
    (s : Str) (h' : Hash) :
    Hash.mintLoop date resource salt fuel h c = some (s, h') ↔
      ∃ k, k < fuel ∧ s = sprintfStamp h.bits date resource h.extra salt (c + k) ∧
        h.bits ≤ countLeadingZeroBits (sha1 s) ∧
        (∀ j, j < k → ¬ h.bits ≤ countLeadingZeroBits
          (sha1 (sprintfStamp h.bits date resource h.extra salt (c + j)))) ∧
        h' = { h with hasher := ⟨s⟩ } := by
  induction fuel generalizing h c with
  | zero =>
    constructor
    · intro hm
      cases hm
    · rintro ⟨k, hk, _⟩
      omega
  | succ n ih =>
    unfold Hash.mintLoop
    simp only []
    by_cases hz : h.bits ≤ countLeadingZeroBits
        (sha1 (sprintfStamp h.bits date resource h.extra salt c))
    · have hz1 : (h.checkZeros (sprintfStamp h.bits date resource h.extra salt c)).1 = true := by
        rw [checkZeros_fst]
        exact decide_eq_true hz
      rw [if_pos hz1, checkZeros_snd]
      constructor
      · intro hm
        cases hm
        exact ⟨0, by omega, rfl, hz, fun j hj => by omega, rfl⟩
      · rintro ⟨k, _, hs, _, hleast, hh⟩
        cases k with
        | zero =>
          rw [Nat.add_zero] at hs
          subst hs
          rw [hh]
        | succ k => exact absurd hz (hleast 0 (by omega))
    · have hz1 : ¬ (h.checkZeros (sprintfStamp h.bits date resource h.extra salt c)).1 = true := by
        rw [checkZeros_fst]
        simpa using hz
      rw [if_neg hz1, checkZeros_snd, ih]
      constructor
      · rintro ⟨k, hk, hs, hm, hleast, hh⟩
        refine ⟨k + 1, by omega, ?_, hm, ?_, hh⟩
        · rw [hs]
          show _ = sprintfStamp h.bits date resource h.extra salt (c + (k + 1))
          rw [show c + (k + 1) = c + 1 + k by omega]
        · intro j hj
          cases j with
          | zero => exact hz
          | succ j =>
            have := hleast j (by omega)
            rw [show c + (j + 1) = c + 1 + j by omega]
            exact this
      · rintro ⟨k, hk, hs, hm, hleast, hh⟩
        cases k with
        | zero => exact absurd (hs ▸ hm) hz
        | succ k =>
          refine ⟨k, by omega, ?_, hm, ?_, hh⟩
          · rw [hs]
            show _ = sprintfStamp h.bits date resource h.extra salt (c + 1 + k)
            rw [show c + (k + 1) = c + 1 + k by omega]
          · intro j hj
            have := hleast (j + 1) (by omega)
            rw [show c + (j + 1) = c + 1 + j by omega] at this
            exact this

theorem getSalt_snd_none_iff (h : Hash) (rand : Except Error (Nat → Byte)) :
    (h.getSalt rand).2 = none ↔ ∃ src, rand = .ok src := by
  cases rand with
  | error e => simp [Hash.getSalt]
  | ok src => simp [Hash.getSalt]

theorem mintReturns_iff (h : Hash) (env : MintEnv) (resource s : Str) (h' : Hash) :
    h.MintReturns env resource s h' ↔
      (h.getSalt env.rand).2 = none ∧
      ∃ c, s = sprintfStamp h.bits (Format env.now env.zoneOffset) resource h.extra
              (h.getSalt env.rand).1 c ∧
        h.bits ≤ countLeadingZeroBits (sha1 s) ∧
        (∀ j, j < c → ¬ h.bits ≤ countLeadingZeroBits
          (sha1 (sprintfStamp h.bits (Format env.now env.zoneOffset) resource h.extra
            (h.getSalt env.rand).1 j))) ∧
        h' = { h with hasher := ⟨s⟩ } := by
  unfold Hash.MintReturns Hash.Mint
  cases hr : env.rand with
  | error e =>
    simp [Hash.getSalt]
  | ok src =>
    have hg : h.getSalt (.ok src) = ((EncodeToString ((List.range h.saltLen).map src)).take
        h.saltLen, none) := rfl
    rw [hg]
    simp only [true_and]
    constructor
    · rintro ⟨fuel, hm⟩
      cases hl : Hash.mintLoop (Format env.now env.zoneOffset) resource
          ((EncodeToString ((List.range h.saltLen).map src)).take h.saltLen) fuel h 0 with
      | none =>
        rw [hl] at hm
        cases hm
      | some p =>
        obtain ⟨s1, h1⟩ := p
        rw [hl] at hm
        simp only [Option.some.injEq, Prod.mk.injEq] at hm
        obtain ⟨⟨hs, _⟩, hh⟩ := hm
        subst hs
        subst hh
        obtain ⟨k, _, hs, hmeet, hleast, hh⟩ := (mintLoop_some_iff _ _ _ _ _ _ _ _).1 hl
        refine ⟨k, ?_, hmeet, ?_, hh⟩
        · rw [hs, Nat.zero_add]
        · intro j hj
          have := hleast j hj
          rwa [Nat.zero_add] at this
    · rintro ⟨c, hs, hmeet, hleast, hh⟩
      refine ⟨c + 1, ?_⟩
      have hl : Hash.mintLoop (Format env.now env.zoneOffset) resource
          ((EncodeToString ((List.range h.saltLen).map src)).take h.saltLen) (c + 1) h 0
          = some (s, h') := by
        rw [mintLoop_some_iff]
        refine ⟨c, by omega, ?_, hmeet, ?_, hh⟩
        · rw [hs, Nat.zero_add]
        · intro j hj
          rw [Nat.zero_add]
          exact hleast j hj
      rw [hl]

/-! ## Salt, date and digest shape -/

theorem b64Char_ne_colon (v : Nat) : b64Char v ≠ colon := by
  unfold b64Char
  by_cases hi : v &&& 0x3F < 64
  · have : ∀ j : Fin 64, encodeStd.getD j.val 0 ≠ colon := by decide
    exact this ⟨_, hi⟩
  · have hlen : encodeStd.length = 64 := by decide
    rw [List.getD_eq_default _ _ (by omega)]
    decide

theorem encodeToString_no_colon (bs : Str) : colon ∉ EncodeToString bs := by
  induction bs using EncodeToString.induct with
  | case1 => simp [EncodeToString]
  | case2 a =>
    have hp : stdPadding ≠ colon := by decide
    simp only [EncodeToString, List.mem_cons, List.mem_singleton, List.not_mem_nil, or_false,
      not_or]
    exact ⟨fun e => b64Char_ne_colon _ e.symm, fun e => b64Char_ne_colon _ e.symm,
      fun e => hp e.symm, fun e => hp e.symm⟩
  | case3 a b =>
    have hp : stdPadding ≠ colon := by decide
    simp only [EncodeToString, List.mem_cons, List.mem_singleton, List.not_mem_nil, or_false,
      not_or]
    exact ⟨fun e => b64Char_ne_colon _ e.symm, fun e => b64Char_ne_colon _ e.symm,
      fun e => b64Char_ne_colon _ e.symm, fun e => hp e.symm⟩
  | case4 a b c rest ih =>
    simp only [EncodeToString, List.mem_cons, not_or]
    exact ⟨fun e => b64Char_ne_colon _ e.symm, fun e => b64Char_ne_colon _ e.symm,
      fun e => b64Char_ne_colon _ e.symm, fun e => b64Char_ne_colon _ e.symm, ih⟩

theorem getSalt_no_colon (h : Hash) (rand : Except Error (Nat → Byte)) :
    colon ∉ (h.getSalt rand).1 := by
  cases rand with
  | error e => simp [Hash.getSalt]
  | ok src =>
    show colon ∉ (EncodeToString ((List.range h.saltLen).map src)).take h.saltLen
    exact fun hm => encodeToString_no_colon _ (List.mem_of_mem_take hm)

theorem format_no_colon (t offset : Int) : colon ∉ Format t offset := by
  unfold Format pad2
  simp only [List.mem_append, List.mem_cons, List.not_mem_nil, or_false, not_or]
  exact ⟨⟨⟨fun e => ldigits_ne_colon _ e.symm, fun e => ldigits_ne_colon _ e.symm⟩,
    fun e => ldigits_ne_colon _ e.symm, fun e => ldigits_ne_colon _ e.symm⟩,
    fun e => ldigits_ne_colon _ e.symm, fun e => ldigits_ne_colon _ e.symm⟩

theorem beBytes_length (n x : Nat) : (beBytes n x).length = n := by
  induction n generalizing x with
  | zero => rfl
  | succ k ih => simp [beBytes, ih]

/-- A SHA-1 digest has 20 bytes. -/
theorem sha1_length (msg : Str) : (sha1 msg).length = 20 := by
  simp [sha1, beBytes_length]

/-- No digest has more than 160 leading zero bits. -/
theorem countLeadingZeroBits_sha1_le (msg : Str) : countLeadingZeroBits (sha1 msg) ≤ 160 := by
  have := countLeadingZeroBits_le (sha1 msg)
  rw [sha1_length] at this
  omega

/-- Whatever `Mint` returns is accepted by every engine that requires no more bits, at
every instant at which the date field is at most 24 hours old. -/
theorem check_of_mintReturns (h : Hash) (env : MintEnv) (resource s : Str) (h1 h2 : Hash)
    (now : Int) (hr : colon ∉ resource) (he : colon ∉ h.extra)
    (hm : h.MintReturns env resource s h1) (hb : h2.bits ≤ h.bits)
    (hd : ∃ d, Parse ((split colon s).getD 2 []) = some d ∧ now - d ≤ 24 * Hour) :
    (h2.Check now s).1 = true := by
  obtain ⟨_, c, hs, hmeet, _, _⟩ := (mintReturns_iff h env resource s h1).1 hm
  have hsplit := split_sprintfStamp h.bits (Format env.now env.zoneOffset) resource h.extra
    (h.getSalt env.rand).1 c (format_no_colon _ _) hr he (getSalt_no_colon _ _)
  rw [← hs] at hsplit
  have h160 := countLeadingZeroBits_sha1_le s
  rw [check_true_iff]
  refine ⟨by rw [hsplit]; rfl, ⟨h.bits, ?_, hb⟩, hd, by omega⟩
  rw [hsplit]
  show ParseUint (fmtDec h.bits) 32 = some h.bits
  rw [parseUint_fmtDec, if_pos (by omega)]

/-! ## Mint and the round trip -/

set_option maxRecDepth 100000 in
/-- A resource that holds a colon breaks the round trip by design: `Mint` returns a stamp
of eight fields, which `Check` rejects on the same engine at the same instant.  Keeping
the separator out of the resource is the caller's duty. -/
theorem round_trip_fails_for_colon_resource :
    (New 0 0 []).MintReturns ⟨.ok (fun _ => 0), 1704067200000000000, 0⟩ (str ":")
      (str "1:0:240101:::::0") { New 0 0 [] with hasher := ⟨str "1:0:240101:::::0"⟩ } ∧
    (({ New 0 0 [] with hasher := ⟨str "1:0:240101:::::0"⟩ } : Hash).Check
      1704067200000000000 (str "1:0:240101:::::0")).1 = false :=
  ⟨⟨1, by decide⟩, by decide⟩

set_option maxRecDepth 100000 in
/-- C1. The round trip `Check(Mint(resource)) = true` immediately after minting is broken
by the code on a colon-free input: `Mint` writes the local calendar date and `Check`
reads it as midnight UTC.  Five hours west of UTC, at 20:00 local time on 2024-01-01
(01:00 UTC on 2024-01-02), `Mint` returns a stamp dated `240101`, which `Check` on the
same engine at the same instant takes to be 25 hours old and rejects. -/
theorem round_trip_fails_west_of_utc :
    (New 0 0 []).MintReturns ⟨.ok (fun _ => 0), 1704157200000000000, -18000⟩ (str "a")
      (str "1:0:240101:a:::0") { New 0 0 [] with hasher := ⟨str "1:0:240101:a:::0"⟩ } ∧
    (({ New 0 0 [] with hasher := ⟨str "1:0:240101:a:::0"⟩ } : Hash).Check
      1704157200000000000 (str "1:0:240101:a:::0")).1 = false := by
  refine ⟨⟨1, by decide⟩, ?_⟩
  rw [← Bool.not_eq_true, check_true_iff]
  rintro ⟨_, _, ⟨d, hd, hle⟩, _⟩
  have hp : Parse ((split colon (str "1:0:240101:a:::0")).getD 2 [])
      = some 1704067200000000000 := by decide
  rw [hp] at hd
  cases hd
  revert hle
  decide

/-- The part of the round trip that the code does provide: when neither the resource nor
the engine's extension holds a colon, and the date that `Mint` writes, read back as
`Check` reads it, is at most 24 hours before the mint instant, every stamp that `Mint`
returns is accepted by `Check` on the same engine at the mint instant. -/
theorem round_trip (h : Hash) (env : MintEnv) (resource s : Str) (h' : Hash)
    (hr : colon ∉ resource) (he : colon ∉ h.extra)
    (hd : ∃ d, Parse (Format env.now env.zoneOffset) = some d ∧ env.now - d ≤ 24 * Hour)
    (hm : h.MintReturns env resource s h') :
    (h'.Check env.now s).1 = true := by
  obtain ⟨_, c, hs, _, _, hh⟩ := (mintReturns_iff h env resource s h').1 hm
  have hsplit := split_sprintfStamp h.bits (Format env.now env.zoneOffset) resource h.extra
    (h.getSalt env.rand).1 c (format_no_colon _ _) hr he (getSalt_no_colon _ _)
  rw [← hs] at hsplit
  refine check_of_mintReturns h env resource s h' h' env.now hr he hm (by rw [hh]) ?_
  rw [hsplit]
  exact hd

set_option maxRecDepth 100000 in
/-- An instance of `round_trip`: an engine with `bits = 8` and an 8-character salt,
minting for `test@example.com` at 2024-01-01 00:00 UTC in a UTC zone, returns the stamp
with counter 2, and accepts it at that instant. -/
theorem round_trip_witness :
    (({ New 8 8 [] with hasher := ⟨str "1:8:240101:test@example.com::19jZ2tvc:2"⟩ } : Hash).Check
      1704067200000000000 (str "1:8:240101:test@example.com::19jZ2tvc:2")).1 = true :=
  round_trip (New 8 8 []) ⟨.ok (fun n => Fin.ofNat (n + 215)), 1704067200000000000, 0⟩
    (str "test@example.com") (str "1:8:240101:test@example.com::19jZ2tvc:2")
    { New 8 8 [] with hasher := ⟨str "1:8:240101:test@example.com::19jZ2tvc:2"⟩ }
    (by decide) (by decide) ⟨1704067200000000000, by decide, by decide⟩ ⟨3, by decide⟩

/-- C3. Mint guarantee: when neither the resource nor the engine's extension holds a
colon, every stamp that `Mint` returns is accepted by every engine whose `bits` is at
most the minting engine's, at every instant at which the date field of the stamp is at
most 24 hours old. -/
theorem mint_guarantee (h : Hash) (env : MintEnv) (resource s : Str) (h1 : Hash)
    (hr : colon ∉ resource) (he : colon ∉ h.extra)
    (hm : h.MintReturns env resource s h1) (checker : Hash) (now : Int)
    (hb : checker.bits ≤ h.bits)
    (hd : ∃ d, Parse ((split colon s).getD 2 []) = some d ∧ now - d ≤ 24 * Hour) :
    (checker.Check now s).1 = true :=
  check_of_mintReturns h env resource s h1 checker now hr he hm hb hd

set_option maxRecDepth 100000 in
/-- Witness for C3: the stamp minted at difficulty 4 on 2024-01-01 is accepted 24 hours
after that midnight by an engine that requires 3 bits and has another extension. -/
theorem mint_guarantee_witness :
    ((New 3 5 (str "other")).Check (1704067200000000000 + 24 * Hour)
      (str "1:4:240101:alice:ext:CQoL:3")).1 = true :=
  mint_guarantee (New 4 4 (str "ext"))
    ⟨.ok (fun n => Fin.ofNat (n + 9)), 1704067200000000000, 0⟩
    (str "alice") (str "1:4:240101:alice:ext:CQoL:3")
    { New 4 4 (str "ext") with hasher := ⟨str "1:4:240101:alice:ext:CQoL:3"⟩ }
    (by decide) (by decide) ⟨4, by decide⟩ (New 3 5 (str "other"))
    (1704067200000000000 + 24 * Hour) (by decide)
    ⟨1704067200000000000, by decide, by decide⟩

/-- C9. `Mint` returns the first satisfying counter: `Mint` returns the stamp `s` exactly
when salt generation succeeds and `s` is the serialization, with the engine's bits and
extension, the mint date and the generated salt, of the least counter whose stamp has at
least `bits` leading zero digest bits; with `bits = 0` that counter is 0, reached in
the first iteration. -/
theorem mint_returns_least_counter (h : Hash) (env : MintEnv) (resource : Str) :
    (∀ s h', h.MintReturns env resource s h' ↔
      (h.getSalt env.rand).2 = none ∧
      ∃ c : Nat,
        s = sprintfStamp h.bits (Format env.now env.zoneOffset) resource h.extra
              (h.getSalt env.rand).1 c ∧
        countLeadingZeroBits (sha1 s) ≥ h.bits ∧
        (∀ c', c' < c → ¬ countLeadingZeroBits
          (sha1 (sprintfStamp h.bits (Format env.now env.zoneOffset) resource h.extra
            (h.getSalt env.rand).1 c')) ≥ h.bits) ∧
        h' = { h with hasher := ⟨s⟩ }) ∧
    (h.bits = 0 → (h.getSalt env.rand).2 = none →
      ∃ h', h.Mint 1 env resource =
        some ((sprintfStamp 0 (Format env.now env.zoneOffset) resource h.extra
          (h.getSalt env.rand).1 0, none), h')) := by
  refine ⟨fun s h' => mintReturns_iff h env resource s h', ?_⟩
  intro h0 hsalt
  obtain ⟨src, hsrc⟩ := (getSalt_snd_none_iff h env.rand).1 hsalt
  have hz : (h.checkZeros (sprintfStamp h.bits (Format env.now env.zoneOffset) resource
      h.extra ((EncodeToString ((List.range h.saltLen).map src)).take h.saltLen) 0)).1
      = true := by
    rw [checkZeros_fst, h0]
    exact decide_eq_true (Nat.zero_le _)
  have hg : h.getSalt (.ok src) = ((EncodeToString ((List.range h.saltLen).map src)).take
      h.saltLen, none) := rfl
  refine ⟨(h.checkZeros (sprintfStamp h.bits (Format env.now env.zoneOffset) resource
      h.extra ((EncodeToString ((List.range h.saltLen).map src)).take h.saltLen) 0)).2, ?_⟩
  unfold Hash.Mint
  rw [hsrc, hg]
  simp only [Hash.mintLoop]
  rw [if_pos hz, h0]

set_option maxRecDepth 100000 in
/-- Witness for C9: the engine with `bits = 8` and salt `19jZ2tvc` returns the stamp
with counter 2, so counters 0 and 1 do not meet the difficulty; and an engine with
`bits = 0` returns counter 0. -/
theorem mint_returns_least_counter_witness :
    (∃ c : Nat,
      str "1:8:240101:test@example.com::19jZ2tvc:2"
        = sprintfStamp 8 (str "240101") (str "test@example.com") [] (str "19jZ2tvc") c ∧
      ∀ c', c' < c → ¬ countLeadingZeroBits
        (sha1 (sprintfStamp 8 (str "240101") (str "test@example.com") [] (str "19jZ2tvc") c'))
          ≥ 8) ∧
    ∃ h', (New 0 4 []).Mint 1 ⟨.ok (fun n => Fin.ofNat (n + 9)), 1704067200000000000, 0⟩
      (str "alice") = some ((str "1:0:240101:alice::CQoL:0", none), h') :=
  have w := ((mint_returns_least_counter (New 8 8 [])
    ⟨.ok (fun n => Fin.ofNat (n + 215)), 1704067200000000000, 0⟩ (str "test@example.com")).1
      (str "1:8:240101:test@example.com::19jZ2tvc:2")
      { New 8 8 [] with hasher := ⟨str "1:8:240101:test@example.com::19jZ2tvc:2"⟩ }).1
        ⟨3, by decide⟩
  have w0 := (mint_returns_least_counter (New 0 4 [])
    ⟨.ok (fun n => Fin.ofNat (n + 9)), 1704067200000000000, 0⟩ (str "alice")).2
      rfl rfl
  ⟨(match w.2 with | ⟨c, hs, _, hl, _⟩ => ⟨c, hs, hl⟩), w0⟩

/-- C10 fails as stated: for `bits = 4294967296` the bits field of the stamp is not
accepted by `ParseUint(·, 10, 32)`. -/
theorem codec_round_trip_fails_for_large_bits :
    ParseUint ((split colon
      (sprintfStamp 4294967296 (str "240101") (str "foo") (str "bar") (str "salt") 0)).getD
        1 []) 32 = none := by
  decide

/-- C10, amended. Stamp codec round trip: every stamp text that `Mint` builds is
`1:` decimal bits `:` date `:` resource `:` extension `:` salt `:` lowercase hexadecimal
counter, whatever its parts hold; when date, resource, extension and salt hold no colon
it splits into exactly these seven fields, in order, and `ParseUint(·, 10, 32)` reads the
bits back from field 1 when `bits < 2 ^ 32`, and fails otherwise. -/
theorem codec_round_trip (bits counter : Nat) (date resource extra salt : Str) :
    sprintfStamp bits date resource extra salt counter
      = str "1" ++ [colon] ++ decimalText bits ++ [colon] ++ date ++ [colon] ++ resource
          ++ [colon] ++ extra ++ [colon] ++ salt ++ [colon] ++ hexText counter ∧
    (colon ∉ date → colon ∉ resource → colon ∉ extra → colon ∉ salt →
      split colon (sprintfStamp bits date resource extra salt counter)
        = [str "1", decimalText bits, date, resource, extra, salt, hexText counter] ∧
      (split colon (sprintfStamp bits date resource extra salt counter)).length = 7 ∧
      ParseUint ((split colon (sprintfStamp bits date resource extra salt counter)).getD 1 [])
        32 = if bits < 2 ^ 32 then some bits else none) := by
  constructor
  · have e1 : str "1:" = str "1" ++ [colon] := by decide
    rw [← fmtDec_eq_decimalText, ← fmtHex_eq_hexText]
    simp [sprintfStamp, e1]
  · intro hd hr he hs
    have hsplit := split_sprintfStamp bits date resource extra salt counter hd hr he hs
    refine ⟨?_, ?_, ?_⟩
    · rw [hsplit, fmtDec_eq_decimalText, fmtHex_eq_hexText]
    · rw [hsplit]
      rfl
    · rw [hsplit]
      exact parseUint_fmtDec bits

/-- Witness for C10, amended: the stamp for bits 20, date `240101`, resource `foo`,
extension `bar`, salt `c2FsdA`, counter 48879 splits into its seven fields, and 20 is
read back from the bits field; and the stamp built for the resource `:` has the stated
text as well. -/
theorem codec_round_trip_witness :
    (split colon (sprintfStamp 20 (str "240101") (str "foo") (str "bar") (str "c2FsdA") 48879)
      = [str "1", decimalText 20, str "240101", str "foo", str "bar", str "c2FsdA",
          hexText 48879] ∧
    ParseUint ((split colon
      (sprintfStamp 20 (str "240101") (str "foo") (str "bar") (str "c2FsdA") 48879)).getD
        1 []) 32 = some 20) ∧
    sprintfStamp 0 (str "240101") (str ":") [] [] 0
      = str "1" ++ [colon] ++ decimalText 0 ++ [colon] ++ str "240101" ++ [colon] ++ str ":"
          ++ [colon] ++ [] ++ [colon] ++ [] ++ [colon] ++ hexText 0 :=
  have w := (codec_round_trip 20 48879 (str "240101") (str "foo") (str "bar")
    (str "c2FsdA")).2 (by decide) (by decide) (by decide) (by decide)
  ⟨⟨w.1, w.2.2.trans (if_pos (by decide))⟩,
    (codec_round_trip 0 0 (str "240101") (str ":") [] []).1⟩

/-! ## The salt -/

theorem b64Char_isBase64 (v : Nat) : isBase64Char (b64Char v) = true := by
  have hi : v &&& 0x3F < 64 := Nat.and_lt_two_pow v (show 0x3F < 2 ^ 6 by decide)
  have : ∀ j : Fin 64, isBase64Char (encodeStd.getD j.val 0) = true := by decide
  exact this ⟨_, hi⟩

theorem encodeToString_length (bs : Str) :
    (EncodeToString bs).length = 4 * ((bs.length + 2) / 3) := by
  induction bs using EncodeToString.induct with
  | case1 => rfl
  | case2 a => simp [EncodeToString]
  | case3 a b => simp [EncodeToString]
  | case4 a b c rest ih =>
    simp only [EncodeToString, List.length_cons, ih]
    omega

/-- The first `⌈4 n / 3⌉` characters of the encoding of `n` bytes are alphabet characters:
padding only comes after them. -/
theorem encodeToString_take_base64 (bs : Str) (k : Nat) (hk : 3 * k ≤ 4 * bs.length + 2) :
    ∀ c ∈ (EncodeToString bs).take k, isBase64Char c = true := by
  induction bs using EncodeToString.induct generalizing k with
  | case1 =>
    intro c hc
    simp [EncodeToString] at hc
  | case2 a =>
    have hk2 : k ≤ 2 := by
      simp only [List.length_cons, List.length_nil] at hk
      omega
    intro c hc
    simp only [EncodeToString] at hc
    interval_cases k
    · simp at hc
    · simp only [List.take_succ_cons, List.take_zero, List.mem_singleton] at hc
      rw [hc]
      exact b64Char_isBase64 _
    · simp only [List.take_succ_cons, List.take_zero, List.mem_cons, List.not_mem_nil,
        or_false] at hc
      rcases hc with hc | hc <;> rw [hc] <;> exact b64Char_isBase64 _
  | case3 a b =>
    have hk3 : k ≤ 3 := by
      simp only [List.length_cons, List.length_nil] at hk
      omega
    intro c hc
    simp only [EncodeToString] at hc
    interval_cases k
    · simp at hc
    · simp only [List.take_succ_cons, List.take_zero, List.mem_singleton] at hc
      rw [hc]
      exact b64Char_isBase64 _
    · simp only [List.take_succ_cons, List.take_zero, List.mem_cons, List.not_mem_nil,
        or_false] at hc
      rcases hc with hc | hc <;> rw [hc] <;> exact b64Char_isBase64 _
    · simp only [List.take_succ_cons, List.take_zero, List.mem_cons, List.not_mem_nil,
        or_false] at hc
      rcases hc with hc | hc | hc <;> rw [hc] <;> exact b64Char_isBase64 _
  | case4 a b c rest ih =>
    intro x hx
    simp only [EncodeToString] at hx
    by_cases hk4 : k ≤ 4
    · have hx' := List.mem_of_mem_take hx
      have hsub : x ∈ [b64Char ((a.val <<< 16 ||| b.val <<< 8 ||| c.val) >>> 18),
          b64Char ((a.val <<< 16 ||| b.val <<< 8 ||| c.val) >>> 12),
          b64Char ((a.val <<< 16 ||| b.val <<< 8 ||| c.val) >>> 6),
          b64Char (a.val <<< 16 ||| b.val <<< 8 ||| c.val)] := by
        interval_cases k
        · simp at hx
        · simp only [List.take_succ_cons, List.take_zero, List.mem_singleton] at hx
          simp [hx]
        · simp only [List.take_succ_cons, List.take_zero, List.mem_cons, List.not_mem_nil,
            or_false] at hx
          rcases hx with hx | hx <;> simp [hx]
        · simp only [List.take_succ_cons, List.take_zero, List.mem_cons, List.not_mem_nil,
            or_false] at hx
          rcases hx with hx | hx | hx <;> simp [hx]
        · simp only [List.take_succ_cons, List.take_zero, List.mem_cons, List.not_mem_nil,
            or_false] at hx
          rcases hx with hx | hx | hx | hx <;> simp [hx]
      simp only [List.mem_cons, List.not_mem_nil, or_false] at hsub
      rcases hsub with h | h | h | h <;> rw [h] <;> exact b64Char_isBase64 _
    · obtain ⟨j, hj⟩ : ∃ j, k = j + 4 := ⟨k - 4, by omega⟩
      subst hj
      simp only [List.take_succ_cons, List.mem_cons] at hx
      simp only [List.length_cons] at hk
      rcases hx with h | h | h | h | h
      · rw [h]; exact b64Char_isBase64 _
      · rw [h]; exact b64Char_isBase64 _
      · rw [h]; exact b64Char_isBase64 _
      · rw [h]; exact b64Char_isBase64 _
      · exact ih j (by omega) x h

theorem isBase64Char_ne (c : Byte) (h : isBase64Char c = true) :
    c ≠ stdPadding ∧ c ≠ colon := by
  simp only [isBase64Char, decide_eq_true_eq] at h
  constructor
  · intro e
    rw [e] at h
    revert h
    decide
  · intro e
    rw [e] at h
    revert h
    decide

/-- C11. Salt shape and safety: the padded base64 encoding of `n` bytes has at least `n`
characters, so cutting it to `n` characters stays in range; the cut has exactly `n`
characters, each from the alphabet `A-Z a-z 0-9 + /`, never the padding `=` and never
the separator `:`; and this cut is the salt that `getSalt` returns whenever the random
read succeeds. -/
theorem salt_shape (n : Nat) (buf : Str) (hlen : buf.length = n) :
    (EncodeToString buf).length ≥ n ∧
    ((EncodeToString buf).take n).length = n ∧
    (∀ c ∈ (EncodeToString buf).take n,
      isBase64Char c = true ∧ c ≠ stdPadding ∧ c ≠ colon) ∧
    (∀ (h : Hash) (src : Nat → Byte), h.saltLen = n →
      ((List.range h.saltLen).map src).length = n ∧
      h.getSalt (.ok src) = ((EncodeToString ((List.range h.saltLen).map src)).take n, none) ∧
      (h.getSalt (.ok src)).1.length = n ∧
      ∀ c ∈ (h.getSalt (.ok src)).1, isBase64Char c = true ∧ c ≠ stdPadding ∧ c ≠ colon) := by
  have hge : (EncodeToString buf).length ≥ n := by
    rw [encodeToString_length, hlen]
    omega
  refine ⟨hge, ?_, ?_, ?_⟩
  · rw [List.length_take]
    omega
  · intro c hc
    have hb := encodeToString_take_base64 buf n (by omega) c hc
    exact ⟨hb, isBase64Char_ne c hb⟩
  · intro h src hn
    have hl : ((List.range h.saltLen).map src).length = n := by simp [hn]
    have hg : h.getSalt (.ok src)
        = ((EncodeToString ((List.range h.saltLen).map src)).take n, none) := by
      rw [← hn]
      rfl
    refine ⟨hl, hg, ?_, ?_⟩
    · rw [hg, List.length_take, encodeToString_length, hl]
      omega
    · intro c hc
      rw [hg] at hc
      have hb := encodeToString_take_base64 _ n (by omega) c hc
      exact ⟨hb, isBase64Char_ne c hb⟩

/-- Witness for C11: the eight bytes 215, 216, ..., 222 encode to `19jZ2tvc3d4=`, cut to
the salt `19jZ2tvc`. -/
theorem salt_shape_witness :
    (New 8 8 []).getSalt (.ok (fun n => Fin.ofNat (n + 215))) = (str "19jZ2tvc", none) ∧
    ∀ c ∈ ((New 8 8 []).getSalt (.ok (fun n => Fin.ofNat (n + 215)))).1,
      isBase64Char c = true ∧ c ≠ stdPadding ∧ c ≠ colon :=
  have w := (salt_shape 8 ((List.range 8).map (fun n => Fin.ofNat (n + 215))) rfl).2.2.2
    (New 8 8 []) (fun n => Fin.ofNat (n + 215)) rfl
  ⟨by decide, w.2.2.2⟩

/-! ## Engine state and verdicts -/

theorem checkZeros_snd_bits (h : Hash) (s : Str) : (h.checkZeros s).2.bits = h.bits := by
  rw [checkZeros_snd]

theorem check_snd_bits (h : Hash) (now : Int) (s : Str) : (h.Check now s).2.bits = h.bits := by
  unfold Hash.Check
  simp only []
  by_cases hlen : (split colon s).length ≠ 7
  · rw [if_pos hlen]
  · rw [if_neg hlen]
    cases hp : ParseUint ((split colon s).getD 1 []) 32 with
    | none => rfl
    | some v =>
      simp only []
      by_cases hv : v < h.bits
      · rw [if_pos hv]
      · rw [if_neg hv]
        by_cases hd : (!h.checkDate now s) = true
        · rw [if_pos hd]
        · rw [if_neg hd]
          exact checkZeros_snd_bits h s

theorem mintLoop_bits (date resource salt : Str) (fuel : Nat) (h : Hash) (c : Nat)
    (s : Str) (h' : Hash) (hm : Hash.mintLoop date resource salt fuel h c = some (s, h')) :
    h'.bits = h.bits := by
  obtain ⟨_, _, _, _, _, hh⟩ := (mintLoop_some_iff _ _ _ _ _ _ _ _).1 hm
  rw [hh]

theorem mint_bits (h : Hash) (fuel : Nat) (env : MintEnv) (resource : Str)
    (r : Str × Option Error) (h' : Hash) (hm : h.Mint fuel env resource = some (r, h')) :
    h'.bits = h.bits := by
  unfold Hash.Mint at hm
  cases hr : env.rand with
  | error e =>
    rw [hr] at hm
    simp only [Hash.getSalt, Option.some.injEq, Prod.mk.injEq] at hm
    rw [← hm.2]
  | ok src =>
    rw [hr] at hm
    have hg : h.getSalt (.ok src) = ((EncodeToString ((List.range h.saltLen).map src)).take
        h.saltLen, none) := rfl
    rw [hg] at hm
    simp only [] at hm
    cases hl : Hash.mintLoop (Format env.now env.zoneOffset) resource
        ((EncodeToString ((List.range h.saltLen).map src)).take h.saltLen) fuel h 0 with
    | none =>
      rw [hl] at hm
      cases hm
    | some p =>
      obtain ⟨s1, h1⟩ := p
      rw [hl] at hm
      simp only [Option.some.injEq, Prod.mk.injEq] at hm
      rw [← hm.2]
      exact mintLoop_bits _ _ _ _ _ _ _ _ hl

/-- The verdict of `Check` is a function of the four conditions of `check_true_iff`. -/
theorem check_fst_congr (h h' : Hash) (t t' : Int) (s s' : Str)
    (hiff : (h.Check t s).1 = true ↔ (h'.Check t' s').1 = true) :
    (h.Check t s).1 = (h'.Check t' s').1 := by
  cases h1 : (h.Check t s).1 <;> cases h2 : (h'.Check t' s').1 <;> simp_all

theorem mint_ok_eq (h : Hash) (fuel : Nat) (env : MintEnv) (resource : Str)
    (src : Nat → Byte) (hr : env.rand = .ok src) :
    h.Mint fuel env resource =
      match Hash.mintLoop (Format env.now env.zoneOffset) resource
          (h.getSalt env.rand).1 fuel h 0 with
      | none => none
      | some (stamp, h') => some ((stamp, none), h') := by
  unfold Hash.Mint
  rw [hr]
  rfl

theorem mint_error_eq (h : Hash) (fuel : Nat) (env : MintEnv) (resource : Str)
    (err : Error) (hr : env.rand = .error err) :
    h.Mint fuel env resource = some (([], some err), h) := by
  unfold Hash.Mint
  rw [hr]
  rfl

/-- C12. Determinism of `Check`: two check instants that stand alike to the expiry of the
stamp's date (both at most 24 hours after the parsed date, or both later, or the date
does not parse) give the same verdict; and the verdict depends on the engine only
through its `bits`. -/
theorem check_deterministic (h : Hash) (s : Str) (t1 t2 : Int)
    (hw : ∀ d, Parse ((split colon s).getD 2 []) = some d →
      (t1 - d ≤ 24 * Hour ↔ t2 - d ≤ 24 * Hour)) :
    (h.Check t1 s).1 = (h.Check t2 s).1 ∧
    ∀ h' : Hash, h'.bits = h.bits → ∀ t, (h'.Check t s).1 = (h.Check t s).1 := by
  constructor
  · apply check_fst_congr
    rw [check_true_iff, check_true_iff]
    constructor
    · rintro ⟨h7, hb, ⟨d, hd, hle⟩, hz⟩
      exact ⟨h7, hb, ⟨d, hd, (hw d hd).1 hle⟩, hz⟩
    · rintro ⟨h7, hb, ⟨d, hd, hle⟩, hz⟩
      exact ⟨h7, hb, ⟨d, hd, (hw d hd).2 hle⟩, hz⟩
  · intro h' hb t
    apply check_fst_congr
    rw [check_true_iff, check_true_iff, hb]

set_option maxRecDepth 100000 in
/-- Witness for C12: the stamp dated `240101` gets the same verdict at 00:00 and at
23:59:59 UTC of 2024-01-01. -/
theorem check_deterministic_witness :
    ((New 8 8 []).Check 1704067200000000000
        (str "1:8:240101:test@example.com::19jZ2tvc:2")).1
      = ((New 8 8 []).Check 1704153599000000000
        (str "1:8:240101:test@example.com::19jZ2tvc:2")).1 :=
  (check_deterministic (New 8 8 []) (str "1:8:240101:test@example.com::19jZ2tvc:2")
    1704067200000000000 1704153599000000000
    (fun d hd => by
      have hp : Parse ((split colon (str "1:8:240101:test@example.com::19jZ2tvc:2")).getD 2 [])
          = some 1704067200000000000 := by decide
      rw [hp] at hd
      cases hd
      constructor <;> intro _ <;> decide)).1

/-- C13. `Mint` fails only through the random source: when the random read fails, `Mint`
returns the empty text with that error, at once and leaving the engine untouched (no
search); when it succeeds, whatever `Mint` returns is a stamp with a nil error; so
`Mint` returns an error exactly when the random read fails. -/
theorem mint_error_iff_rand_error (h : Hash) (env : MintEnv) (resource : Str) :
    (∀ err, env.rand = .error err →
      ∀ fuel, h.Mint fuel env resource = some (([], some err), h)) ∧
    (∀ src, env.rand = .ok src → ∀ fuel r h', h.Mint fuel env resource = some (r, h') →
      r.2 = none ∧
      ∃ c, r.1 = sprintfStamp h.bits (Format env.now env.zoneOffset) resource h.extra
        (h.getSalt env.rand).1 c) ∧
    ((∃ fuel s err h', h.Mint fuel env resource = some ((s, some err), h')) ↔
      ∃ err, env.rand = .error err) := by
  have hok : ∀ src, env.rand = .ok src → ∀ fuel r h', h.Mint fuel env resource = some (r, h') →
      r.2 = none ∧
      ∃ c, r.1 = sprintfStamp h.bits (Format env.now env.zoneOffset) resource h.extra
        (h.getSalt env.rand).1 c := by
    intro src hr fuel r h' hm
    rw [mint_ok_eq h fuel env resource src hr] at hm
    cases hl : Hash.mintLoop (Format env.now env.zoneOffset) resource
        (h.getSalt env.rand).1 fuel h 0 with
    | none =>
      rw [hl] at hm
      cases hm
    | some p =>
      obtain ⟨s1, h1⟩ := p
      rw [hl] at hm
      simp only [Option.some.injEq, Prod.mk.injEq] at hm
      obtain ⟨k, _, hs, _⟩ := (mintLoop_some_iff _ _ _ _ _ _ _ _).1 hl
      rw [← hm.1]
      refine ⟨rfl, k, ?_⟩
      rw [hs, Nat.zero_add]
  refine ⟨fun err hr fuel => mint_error_eq h fuel env resource err hr, hok, ?_⟩
  constructor
  · rintro ⟨fuel, s, err, h', hm⟩
    cases hr : env.rand with
    | error e => exact ⟨e, rfl⟩
    | ok src =>
      have := (hok src hr fuel _ _ hm).1
      cases this
  · rintro ⟨err, hr⟩
    exact ⟨0, [], err, h, mint_error_eq h 0 env resource err hr⟩

/-- Witness for C13: with a failing random source `Mint` returns the empty text and the
error without running its loop. -/
theorem mint_error_iff_rand_error_witness :
    (New 20 8 []).Mint 0 ⟨.error "no entropy", 1704067200000000000, 0⟩ (str "alice")
      = some (([], some "no entropy"), New 20 8 []) :=
  (mint_error_iff_rand_error (New 20 8 []) ⟨.error "no entropy", 1704067200000000000, 0⟩
    (str "alice")).1 "no entropy" rfl 0

/-- C14. Future-dated stamps are not rejected: for a 7-field stamp whose date field
parses to an instant later than the check instant, however much later, `checkDate`
holds; so the stamp passes `Check` whenever its bits claim and its digest are
sufficient. -/
theorem future_date_accepted (h : Hash) (now : Int) (s : Str) (d : Int)
    (hlen : (split colon s).length = 7)
    (hp : Parse ((split colon s).getD 2 []) = some d) (hfut : now < d) :
    h.checkDate now s = true ∧
    ((∃ stampBits, ParseUint ((split colon s).getD 1 []) 32 = some stampBits ∧
        stampBits ≥ h.bits) →
      countLeadingZeroBits (sha1 s) ≥ h.bits → (h.Check now s).1 = true) := by
  have hH : Hour = 3600000000000 := by norm_num [Hour, Second]
  have hle : now - d ≤ 24 * Hour := by
    rw [hH]
    omega
  refine ⟨(checkDate_true_iff h now s).2 ⟨hlen, d, hp, hle⟩, ?_⟩
  intro hb hz
  exact (check_true_iff h now s).2 ⟨hlen, hb, ⟨d, hp, hle⟩, hz⟩

set_option maxRecDepth 100000 in
/-- Witness for C14: on 2024-01-01 a stamp dated `681231`, almost 45 years ahead, passes
the date check, and passes `Check` of the engine that required its 8 bits. -/
theorem future_date_accepted_witness :
    (New 8 8 []).checkDate 1704067200000000000
      (str "1:8:681231:test@example.com::19jZ2tvc:161") = true ∧
    ((New 8 8 []).Check 1704067200000000000
      (str "1:8:681231:test@example.com::19jZ2tvc:161")).1 = true :=
  have w := future_date_accepted (New 8 8 []) 1704067200000000000
    (str "1:8:681231:test@example.com::19jZ2tvc:161") 3124137600000000000
    (by decide) (by decide) (by decide)
  ⟨w.1, w.2 ⟨8, by decide, by decide⟩ (by decide)⟩

/-- C15. The shared hasher does not leak state: whatever the hasher holds beforehand,
`checkZeros` on a text holds exactly when the SHA-1 digest of that text has at least
`bits` leading zero bits, because the hasher is reset before the text is written; the
hasher afterwards holds that text alone; and after any earlier `checkZeros`, `Check` or
`Mint` call on the engine the answer is the same. -/
theorem checkZeros_ignores_prior_state (h : Hash) (s : Str) :
    ((h.checkZeros s).1 = true ↔ countLeadingZeroBits (sha1 s) ≥ h.bits) ∧
    (∀ prior : Hasher, ({ h with hasher := prior }.checkZeros s).1 = (h.checkZeros s).1) ∧
    (h.checkZeros s).2.hasher = (Hasher.New.Write s) ∧
    (∀ t, ((h.checkZeros t).2.checkZeros s).1 = (h.checkZeros s).1) ∧
    (∀ now t, ((h.Check now t).2.checkZeros s).1 = (h.checkZeros s).1) ∧
    (∀ fuel env resource r h', h.Mint fuel env resource = some (r, h') →
      (h'.checkZeros s).1 = (h.checkZeros s).1) := by
  refine ⟨?_, ?_, ?_, ?_, ?_, ?_⟩
  · rw [checkZeros_fst, decide_eq_true_eq]
  · intro prior
    rw [checkZeros_fst, checkZeros_fst]
  · rw [checkZeros_snd]
    rfl
  · intro t
    rw [checkZeros_fst, checkZeros_fst, checkZeros_snd_bits]
  · intro now t
    rw [checkZeros_fst, checkZeros_fst, check_snd_bits]
  · intro fuel env resource r h' hm
    rw [checkZeros_fst, checkZeros_fst, mint_bits h fuel env resource r h' hm]

set_option maxRecDepth 100000 in
/-- Witness for C15: an engine whose hasher still holds an earlier text answers as a
fresh engine does. -/
theorem checkZeros_ignores_prior_state_witness :
    (({ New 8 8 [] with hasher := ⟨str "1:8:240101:earlier::AAAAAAAA:7f"⟩ } : Hash).checkZeros
      (str "1:8:240101:test@example.com::19jZ2tvc:2")).1 = true :=
  ((checkZeros_ignores_prior_state (New 8 8 [])
    (str "1:8:240101:test@example.com::19jZ2tvc:2")).2.1
      ⟨str "1:8:240101:earlier::AAAAAAAA:7f"⟩).trans (by decide)

/-- C16. Unsatisfiable difficulty: a SHA-1 digest has 20 bytes, so the leading-zero count
is at most 160; for an engine with `bits > 160`, `checkZeros` fails on every text,
`Check` rejects every stamp at every instant, and `Mint` returns no stamp: when the
random read succeeds its loop is still running after any number of iterations. -/
theorem unsatisfiable_above_160 :
    (∀ s : Str, (sha1 s).length = 20 ∧ countLeadingZeroBits (sha1 s) ≤ 160) ∧
    ∀ h : Hash, 160 < h.bits →
      (∀ s, (h.checkZeros s).1 = false) ∧
      (∀ now s, (h.Check now s).1 = false) ∧
      (∀ fuel env resource s h', h.Mint fuel env resource ≠ some ((s, none), h')) ∧
      (∀ fuel env resource src, env.rand = .ok src → h.Mint fuel env resource = none) := by
  refine ⟨fun s => ⟨sha1_length s, countLeadingZeroBits_sha1_le s⟩, ?_⟩
  intro h hb
  have hz : ∀ s, ¬ h.bits ≤ countLeadingZeroBits (sha1 s) := by
    intro s hle
    have := countLeadingZeroBits_sha1_le s
    omega
  have hloop : ∀ date resource salt fuel c,
      Hash.mintLoop date resource salt fuel h c = none := by
    intro date resource salt fuel c
    cases hl : Hash.mintLoop date resource salt fuel h c with
    | none => rfl
    | some p =>
      obtain ⟨s1, h1⟩ := p
      obtain ⟨_, _, _, hmeet, _⟩ := (mintLoop_some_iff _ _ _ _ _ _ _ _).1 hl
      exact absurd hmeet (hz s1)
  have hnone : ∀ fuel env resource src, env.rand = .ok src →
      h.Mint fuel env resource = none := by
    intro fuel env resource src hr
    rw [mint_ok_eq h fuel env resource src hr, hloop]
  refine ⟨?_, ?_, ?_, hnone⟩
  · intro s
    rw [checkZeros_fst]
    exact decide_eq_false (hz s)
  · intro now s
    rw [← Bool.not_eq_true, check_true_iff]
    rintro ⟨_, _, _, hle⟩
    exact hz s hle
  · intro fuel env resource s h' hm
    cases hr : env.rand with
    | error e =>
      rw [mint_error_eq h fuel env resource e hr] at hm
      simp at hm
    | ok src =>
      rw [hnone fuel env resource src hr] at hm
      cases hm

/-- Witness for C16: an engine with `bits = 161` rejects a stamp that claims 161 bits,
and its `Mint` has not returned after 1000 iterations. -/
theorem unsatisfiable_above_160_witness :
    ((New 161 8 []).Check 1704067200000000000
      (str "1:161:240101:test@example.com::19jZ2tvc:2")).1 = false ∧
    (New 161 8 []).Mint 1000 ⟨.ok (fun n => Fin.ofNat (n + 215)), 1704067200000000000, 0⟩
      (str "test@example.com") = none :=
  have w := unsatisfiable_above_160.2 (New 161 8 []) (by decide)
  ⟨w.2.1 _ _, w.2.2.2 _ _ _ _ rfl⟩

/-- C17. Validity only decays with time: a stamp accepted at an instant is accepted at
every earlier instant; equivalently, a stamp rejected at an instant is rejected at every
later one. -/
theorem check_antitone_in_time (h : Hash) (s : Str) (t1 t2 : Int) (hle : t1 ≤ t2) :
    ((h.Check t2 s).1 = true → (h.Check t1 s).1 = true) ∧
    ((h.Check t1 s).1 = false → (h.Check t2 s).1 = false) := by
  have key : (h.Check t2 s).1 = true → (h.Check t1 s).1 = true := by
    rw [check_true_iff, check_true_iff]
    rintro ⟨h7, hb, ⟨d, hd, hd24⟩, hz⟩
    exact ⟨h7, hb, ⟨d, hd, by omega⟩, hz⟩
  refine ⟨key, ?_⟩
  intro h1
  cases h2 : (h.Check t2 s).1 with
  | false => rfl
  | true =>
    rw [key h2] at h1
    cases h1

set_option maxRecDepth 100000 in
/-- Witness for C17: the stamp dated `240101`, accepted 24 hours after that midnight, is
accepted 12 hours after it. -/
theorem check_antitone_in_time_witness :
    ((New 8 8 []).Check (1704067200000000000 + 12 * Hour)
      (str "1:8:240101:test@example.com::19jZ2tvc:2")).1 = true :=
  (check_antitone_in_time (New 8 8 []) (str "1:8:240101:test@example.com::19jZ2tvc:2")
    (1704067200000000000 + 12 * Hour) (1704067200000000000 + 24 * Hour) (by decide)).1
    ((check_true_iff _ _ _).2
      ⟨by decide, ⟨8, by decide, by decide⟩, ⟨1704067200000000000, by decide, by decide⟩,
        by decide⟩)

/-- C18. `Check` looks at the field count, the bits field, the date field and the digest
only: two 7-field texts with the same bits and date fields whose digests stand alike to
the engine's `bits` get the same verdict, whatever their other fields; and an engine
with `bits = 0` accepts every 7-field text whose field 1 is accepted by
`ParseUint(·, 10, 32)` and whose field 2 is a date at most 24 hours old. -/
theorem check_ignores_other_fields (h : Hash) (now : Int) :
    (∀ s s' : Str, (split colon s).length = 7 → (split colon s').length = 7 →
      (split colon s).getD 1 [] = (split colon s').getD 1 [] →
      (split colon s).getD 2 [] = (split colon s').getD 2 [] →
      (countLeadingZeroBits (sha1 s) ≥ h.bits ↔ countLeadingZeroBits (sha1 s') ≥ h.bits) →
      (h.Check now s).1 = (h.Check now s').1) ∧
    (h.bits = 0 → ∀ s : Str, (split colon s).length = 7 →
      (∃ stampBits, ParseUint ((split colon s).getD 1 []) 32 = some stampBits) →
      (∃ d, Parse ((split colon s).getD 2 []) = some d ∧ now - d ≤ 24 * Hour) →
      (h.Check now s).1 = true) := by
  constructor
  · intro s s' h7 h7' h1 h2 hz
    apply check_fst_congr
    rw [check_true_iff, check_true_iff, ← h1, ← h2]
    constructor
    · rintro ⟨_, hb, hd, hm⟩
      exact ⟨h7', hb, hd, hz.1 hm⟩
    · rintro ⟨_, hb, hd, hm⟩
      exact ⟨h7, hb, hd, hz.2 hm⟩
  · intro h0 s h7 hb hd
    obtain ⟨v, hv⟩ := hb
    rw [check_true_iff, h0]
    exact ⟨h7, ⟨v, hv, Nat.zero_le _⟩, hd, Nat.zero_le _⟩

/-- Witness for C18: an engine with `bits = 0` and extension `ext` accepts a text whose
version field is `9`, whose extension field is `other` and whose counter field is
`zz`. -/
theorem check_ignores_other_fields_witness :
    ((New 0 8 (str "ext")).Check 1704067200000000000
      (str "9:5:240101:any thing:other:!!:zz")).1 = true :=
  (check_ignores_other_fields (New 0 8 (str "ext")) 1704067200000000000).2 rfl
    (str "9:5:240101:any thing:other:!!:zz") (by decide) ⟨5, by decide⟩
    ⟨1704067200000000000, by decide, by decide⟩

/-! ## The bits field -/

theorem foldl_parseUintStep_none (m : Nat) (l : Str) :
    l.foldl (parseUintStep m) none = none := by
  induction l with
  | nil => rfl
  | cons c cs ih => exact ih

theorem parseUintStep_not_digit (m : Nat) (acc : Option Nat) (c : Byte)
    (hc : isDecDigit c = false) : parseUintStep m acc c = none := by
  have hnd : ¬ (48 ≤ c.val ∧ c.val ≤ 57) := by
    simpa [isDecDigit] using hc
  cases acc with
  | none => rfl
  | some n =>
    unfold parseUintStep
    simp only []
    rw [if_neg hnd]
    by_cases hl : 97 ≤ (c.val ||| 0x20) ∧ (c.val ||| 0x20) ≤ 122
    · rw [if_pos hl]
      simp only []
      rw [if_pos (by omega)]
    · rw [if_neg hl]

theorem parseUintStep_is_digit (n : Nat) (c : Byte) (hc : isDecDigit c = true)
    (hn : n ≤ 2 ^ 32 - 1) :
    parseUintStep (2 ^ 32 - 1) (some n) c
      = if n * 10 + (c.val - 48) ≤ 2 ^ 32 - 1 then some (n * 10 + (c.val - 48)) else none := by
  have hd : 48 ≤ c.val ∧ c.val ≤ 57 := by
    simpa [isDecDigit] using hc
  unfold parseUintStep
  simp only []
  rw [if_pos hd]
  simp only []
  rw [if_neg (by omega), if_neg (by omega)]
  have hmod : (n * 10 + (c.val - 48)) % 2 ^ 64 = n * 10 + (c.val - 48) :=
    Nat.mod_eq_of_lt (by omega)
  rw [hmod]
  by_cases hle : n * 10 + (c.val - 48) ≤ 2 ^ 32 - 1
  · rw [if_pos hle, if_neg (by omega)]
  · rw [if_neg hle, if_pos (by omega)]

theorem decValue_snoc (f : Str) (c : Byte) :
    decValue (f ++ [c]) = decValue f * 10 + (c.val - 48) := by
  simp [decValue, List.foldl_append]

theorem foldl_parseUintStep_digits (f : Str) (hf : ∀ c ∈ f, isDecDigit c = true) :
    f.foldl (parseUintStep (2 ^ 32 - 1)) (some 0)
      = if decValue f ≤ 2 ^ 32 - 1 then some (decValue f) else none := by
  induction f using List.reverseRecOn with
  | nil => rfl
  | append_singleton f c ih =>
    have hf' : ∀ x ∈ f, isDecDigit x = true := fun x hx => hf x (by simp [hx])
    have hc : isDecDigit c = true := hf c (by simp)
    rw [List.foldl_append, ih hf', decValue_snoc]
    simp only [List.foldl_cons, List.foldl_nil]
    by_cases hle : decValue f ≤ 2 ^ 32 - 1
    · rw [if_pos hle, parseUintStep_is_digit _ _ hc hle]
    · rw [if_neg hle, if_neg (by omega)]
      rfl

theorem foldl_parseUintStep_bad (f : Str) (hf : ∃ c ∈ f, isDecDigit c = false)
    (acc : Option Nat) : f.foldl (parseUintStep (2 ^ 32 - 1)) acc = none := by
  obtain ⟨c, hc, hnd⟩ := hf
  obtain ⟨pre, post, rfl⟩ := List.append_of_mem hc
  rw [List.foldl_append, List.foldl_cons, parseUintStep_not_digit _ _ _ hnd,
    foldl_parseUintStep_none]

/-- What `ParseUint(·, 10, 32)` accepts: the non-empty strings of decimal digits whose
value is at most `2 ^ 32 - 1`; the result is that value. -/
theorem parseUint_eq_some_iff (f : Str) (v : Nat) :
    ParseUint f 32 = some v ↔
      f ≠ [] ∧ (∀ c ∈ f, isDecDigit c = true) ∧ decValue f = v ∧ v ≤ 2 ^ 32 - 1 := by
  unfold ParseUint
  by_cases he : f = []
  · rw [if_pos he]
    constructor
    · intro hc
      cases hc
    · rintro ⟨hne, _⟩
      exact absurd he hne
  · rw [if_neg he]
    by_cases hall : ∀ c ∈ f, isDecDigit c = true
    · rw [foldl_parseUintStep_digits f hall]
      by_cases hle : decValue f ≤ 2 ^ 32 - 1
      · rw [if_pos hle]
        constructor
        · intro hv
          cases hv
          exact ⟨he, hall, rfl, hle⟩
        · rintro ⟨_, _, hv, _⟩
          rw [hv]
      · rw [if_neg hle]
        constructor
        · intro hc
          cases hc
        · rintro ⟨_, _, hv, hv2⟩
          rw [← hv] at hv2
          exact absurd hv2 hle
    · have hbad : ∃ c ∈ f, isDecDigit c = false := by
        by_contra hcon
        apply hall
        intro c hc
        cases hd : isDecDigit c with
        | true => rfl
        | false => exact absurd ⟨c, hc, hd⟩ hcon
      rw [foldl_parseUintStep_bad f hbad]
      constructor
      · intro hc
        cases hc
      · rintro ⟨_, hall', _⟩
        exact absurd hall' hall

theorem decValue_leading_zeros (k : Nat) (f : Str) :
    decValue (List.replicate k 48 ++ f) = decValue f := by
  induction k with
  | zero => rfl
  | succ n ih =>
    rw [List.replicate_succ, List.cons_append]
    have : decValue ((48 : Byte) :: (List.replicate n 48 ++ f))
        = decValue (List.replicate n 48 ++ f) := rfl
    rw [this, ih]

/-- C19. The claimed-bits field is read as a 32-bit unsigned decimal: `ParseUint(·, 10,
32)` accepts exactly the non-empty strings of decimal digits whose value is at most
`2 ^ 32 - 1`, leading zeros not counting; so every engine, whatever its `bits`, rejects a
7-field stamp whose field 1 is empty, holds a sign or any other non-digit, or denotes a
value above `2 ^ 32 - 1`. -/
theorem bits_field_is_32_bit_decimal :
    (∀ (f : Str) (v : Nat), ParseUint f 32 = some v ↔
      f ≠ [] ∧ (∀ c ∈ f, isDecDigit c = true) ∧ decValue f = v ∧ v ≤ 2 ^ 32 - 1) ∧
    (∀ (k : Nat) (f : Str), decValue (List.replicate k 48 ++ f) = decValue f) ∧
    (∀ (h : Hash) (now : Int) (s : Str), (split colon s).length = 7 →
      ((split colon s).getD 1 [] = [] ∨
        (∃ c ∈ (split colon s).getD 1 [], isDecDigit c = false) ∨
        decValue ((split colon s).getD 1 []) > 2 ^ 32 - 1) →
      (h.Check now s).1 = false) ∧
    ParseUint (str "4294967296") 32 = none ∧
    ParseUint (str "4294967295") 32 = some 4294967295 ∧
    ParseUint (str "+20") 32 = none ∧
    ParseUint (str "-20") 32 = none ∧
    ParseUint (str "0020") 32 = some 20 := by
  refine ⟨parseUint_eq_some_iff, decValue_leading_zeros, ?_, by decide, by decide, by decide,
    by decide, by decide⟩
  intro h now s _ hbad
  rw [← Bool.not_eq_true, check_true_iff]
  rintro ⟨_, ⟨v, hv, _⟩, _⟩
  obtain ⟨hne, hall, hval, hle⟩ := (parseUint_eq_some_iff _ _).1 hv
  rcases hbad with he | ⟨c, hc, hnd⟩ | hbig
  · exact hne he
  · rw [hall c hc] at hnd
    cases hnd
  · omega

/-- Witness for C19: an engine requiring no work rejects a current 7-field stamp that
claims `4294967296` bits. -/
theorem bits_field_is_32_bit_decimal_witness :
    ((New 0 8 []).Check 1704067200000000000 (str "1:4294967296:240101:a:b:c:0")).1 = false :=
  bits_field_is_32_bit_decimal.2.2.1 (New 0 8 []) 1704067200000000000
    (str "1:4294967296:240101:a:b:c:0") (by decide) (Or.inr (Or.inr (by decide)))
end Hashcash
